import Mathlib

/-!
Verification of the PeakStrategy caching and fetch-coordination layer.

This file gives a shallow embedding, in Lean, of the parts of the backend
that implement multi-tier caching, request coalescing, distributed rate
limiting and provider fetching:

* `app/services/redis_service.py` — `InMemoryCache` (L1) and `RedisService`
  (L1 + L2 with TTLs);
* `app/services/stock_price_service.py` — `StockPriceService` (market-status
  TTL policy, Supabase L3 tier, `get_price`, `_deduplicated_fetch`,
  `_fetch_price`, `invalidate_cache`);
* `app/services/portfolio_builder/thirteen_f_filings_service.py` —
  `_rate_limit_redis`.

Wall-clock times are embedded as rationals, machine floats as rationals,
Python dicts as association lists, and the Python set used for the
background refresh queue as a duplicate-free list.  Lock-protected blocks
of the coalescer are modelled as atomic transitions of an explicit
interleaving semantics.  Theorems about each property follow the
definitions.
-/

namespace PeakStrategy

/-! ## Association-list maps (embedding of Python dict) -/

def alookup {κ β : Type} [DecidableEq κ] : List (κ × β) → κ → Option β
  | [], _ => none
  | (k, v) :: rest, key => if k = key then some v else alookup rest key

def aerase {κ β : Type} [DecidableEq κ] : List (κ × β) → κ → List (κ × β)
  | [], _ => []
  | (k, v) :: rest, key =>
      if k = key then aerase rest key else (k, v) :: aerase rest key

/-- Python dict assignment: bind `k` to `v`, dropping any previous binding. -/
def aset {κ β : Type} [DecidableEq κ] (l : List (κ × β)) (k : κ) (v : β) :
    List (κ × β) :=
  (k, v) :: aerase l k

/-! ## L1: `InMemoryCache` (redis_service.py, class InMemoryCache)

A process-local TTL cache.  Items store a value and an absolute expiry
time (`expires_at = time.time() + ttl` at insertion).  `get` serves an
item only while `expires_at > now` holds strictly and deletes the item
otherwise, exactly as in the source. -/

structure CacheItem (α : Type) where
  value : α
  expires_at : ℚ
deriving DecidableEq

abbrev InMemoryCache (α : Type) : Type := List (String × CacheItem α)

/-- `InMemoryCache.get`: return the value while strictly unexpired,
delete the entry (and return nothing) once `expires_at ≤ now`. -/
def InMemoryCache.get {α : Type} (c : InMemoryCache α) (key : String)
    (now : ℚ) : Option α × InMemoryCache α :=
  match alookup c key with
  | some item =>
      if now < item.expires_at then (some item.value, c)
      else (none, aerase c key)
  | none => (none, c)

/-- `InMemoryCache.set`: store the value with expiry `now + ttl`. -/
def InMemoryCache.set {α : Type} (c : InMemoryCache α) (key : String)
    (value : α) (ttl : ℕ) (now : ℚ) : InMemoryCache α :=
  aset c key ⟨value, now + (ttl : ℚ)⟩

/-- `InMemoryCache.delete`: remove the binding for the key. -/
def InMemoryCache.delete {α : Type} (c : InMemoryCache α) (key : String) :
    InMemoryCache α :=
  aerase c key

/-! ## L1+L2: `RedisService` (redis_service.py)

State of the two-tier cache service: the L1 local cache, the L2
(Redis) contents as an association list of items carrying their
absolute expiry (SETEX semantics), and whether a Redis client is
configured.  Network errors are not modelled beyond client absence;
the source swallows them and degrades to L1.  All call sites relevant
to the claims use the default `skip_l1 = False`, which is the
behaviour embedded here. -/

structure RedisState (α : Type) where
  l1 : InMemoryCache α
  l2 : List (String × CacheItem α)
  hasClient : Bool
deriving DecidableEq

/-- `RedisService._l1_ttl = 60`. -/
def l1_ttl : ℕ := 60

/-- `RedisService.get`: L1 first; on an L1 miss consult L2 (when a
client is configured), parse, and populate L1 with the L1 TTL. -/
def RedisService.get {α : Type} (st : RedisState α) (key : String)
    (now : ℚ) : Option α × RedisState α :=
  match InMemoryCache.get st.l1 key now with
  | (some v, l1Next) => (some v, { st with l1 := l1Next })
  | (none, l1Next) =>
      if st.hasClient then
        match alookup st.l2 key with
        | some item =>
            if now < item.expires_at then
              (some item.value,
               { st with l1 := InMemoryCache.set l1Next key item.value l1_ttl now })
            else (none, { st with l1 := l1Next })
        | none => (none, { st with l1 := l1Next })
      else (none, { st with l1 := l1Next })

/-- `RedisService.set`: always write L1 with `min ttl l1_ttl`; write L2
with the requested TTL when a client is configured. -/
def RedisService.set {α : Type} (st : RedisState α) (key : String)
    (value : α) (ttl : ℕ) (now : ℚ) : RedisState α :=
  let l1Next := InMemoryCache.set st.l1 key value (min ttl l1_ttl) now
  if st.hasClient then
    { st with l1 := l1Next, l2 := aset st.l2 key ⟨value, now + (ttl : ℚ)⟩ }
  else { st with l1 := l1Next }

/-- `RedisService.delete`: delete from L1, then from L2 when a client
is configured. -/
def RedisService.delete {α : Type} (st : RedisState α) (key : String) :
    RedisState α :=
  { st with
      l1 := InMemoryCache.delete st.l1 key,
      l2 := if st.hasClient then aerase st.l2 key else st.l2 }

/-- `RedisService.set_multi`: every item goes to L1 with
`min ttl l1_ttl`; all items go to L2 via one pipeline of SETEX with the
requested TTL when a client is configured. -/
def RedisService.set_multi {α : Type} (st : RedisState α)
    (items : List (String × α)) (ttl : ℕ) (now : ℚ) : RedisState α :=
  let l1Next := items.foldl
    (fun c kv => InMemoryCache.set c kv.1 kv.2 (min ttl l1_ttl) now) st.l1
  let l2Next :=
    if st.hasClient then
      items.foldl (fun c kv => aset c kv.1 ⟨kv.2, now + (ttl : ℚ)⟩) st.l2
    else st.l2
  { st with l1 := l1Next, l2 := l2Next }

/-- The binding a dict insertion loop leaves for a key: the last pair
of the list with that key (later assignments overwrite earlier ones). -/
def lastLookup {α : Type} (items : List (String × α)) (k : String) :
    Option α :=
  alookup items.reverse k

/-! ## L3 and the price service: `StockPriceService` (stock_price_service.py) -/

/-- `StockPriceService.REDIS_TTL = 90`. -/
def REDIS_TTL : ℕ := 90

/-- `StockPriceService.SUPABASE_TTL_MARKET_OPEN = 300`. -/
def SUPABASE_TTL_MARKET_OPEN : ℕ := 300

/-- `StockPriceService.SUPABASE_TTL_MARKET_CLOSED = 3600`. -/
def SUPABASE_TTL_MARKET_CLOSED : ℕ := 3600

/-- `StockPriceService.SUPABASE_TTL_EXTENDED = 14400`. -/
def SUPABASE_TTL_EXTENDED : ℕ := 14400

inductive MarketStatus : Type
  | OPEN
  | EXTENDED
  | CLOSED
deriving DecidableEq

/-- `StockPriceService._get_market_status`, as a function of the UTC
weekday (Monday = 0) and hour read from the wall clock. -/
def get_market_status (weekday hour : ℕ) : MarketStatus :=
  if 5 ≤ weekday then .CLOSED
  else if 14 ≤ hour ∧ hour < 21 then .OPEN
  else if (9 ≤ hour ∧ hour < 14) ∨ (21 ≤ hour ∧ hour < 24) ∨ hour < 1 then .EXTENDED
  else .CLOSED

/-- `StockPriceService._get_appropriate_supabase_ttl`. -/
def get_appropriate_supabase_ttl (status : MarketStatus) : ℕ :=
  match status with
  | .OPEN => SUPABASE_TTL_MARKET_OPEN
  | .EXTENDED => SUPABASE_TTL_EXTENDED
  | .CLOSED => SUPABASE_TTL_MARKET_CLOSED

/-- `StockPriceService._is_supabase_data_fresh`: the record age in
seconds must be strictly below the market-status TTL.  The wall clock
and the parsed `last_updated` timestamp are passed explicitly. -/
def is_supabase_data_fresh (now last_updated : ℚ) (status : MarketStatus) :
    Bool :=
  decide (now - last_updated < (get_appropriate_supabase_ttl status : ℚ))

/-- A row of the Supabase `stock` table. -/
structure StockRecord where
  symbol : String
  price : ℚ
  previous_close : Option ℚ
  last_updated : ℚ
deriving DecidableEq

/-- `select * ... eq symbol`: the service reads `response.data[0]`,
i.e. the first matching row. -/
def supabaseFind (table : List StockRecord) (symbol : String) :
    Option StockRecord :=
  table.find? (fun r => r.symbol == symbol)

/-- Supabase upsert on the `stock` table keyed by symbol: replace the
matching row, else append. -/
def supabaseUpsert (table : List StockRecord) (r : StockRecord) :
    List StockRecord :=
  if table.any (fun x => x.symbol == r.symbol) then
    table.map (fun x => if x.symbol == r.symbol then r else x)
  else table ++ [r]

/-- The dict `_get_from_supabase` returns; the fresh branch has no
`stale` key, which is embedded as `stale = false`. -/
structure SupabaseResult where
  price : ℚ
  previous_close : Option ℚ
  last_updated : ℚ
  stale : Bool
deriving DecidableEq

/-- The dict cached under `stock_price:<symbol>` by `get_price` (the
writes always carry `price`, `timestamp` and `symbol`). -/
structure PriceCacheData where
  price : ℚ
  timestamp : ℚ
  symbol : String
deriving DecidableEq

/-- `StockPriceService` mutable state: the Redis service, the Supabase
table (`none` when the Supabase client is not configured) and the
background refresh queue (`_background_refresh_queue`, a Python set,
embedded as a duplicate-free list). -/
structure ServiceState where
  redis : RedisState PriceCacheData
  supabase : Option (List StockRecord)
  refreshQueue : List String
deriving DecidableEq

/-- Python `set.add`: append only when absent. -/
def addToSet (q : List String) (s : String) : List String :=
  if s ∈ q then q else q ++ [s]

/-- Python `str.upper`, character-wise. -/
def py_upper (s : String) : String := String.mk (s.data.map Char.toUpper)

/-- Python `str.strip`: drop leading and trailing whitespace. -/
def py_strip (s : String) : String :=
  String.mk
    (((s.data.dropWhile Char.isWhitespace).reverse.dropWhile
        Char.isWhitespace).reverse)

/-- `symbol.upper().strip()` as done by `get_price` and
`invalidate_cache`. -/
def normalize_symbol (s : String) : String := py_strip (py_upper s)

/-- `StockPriceService._get_price_cache_key`. -/
def price_cache_key (symbol : String) : String := "stock_price:" ++ symbol

/-- `StockPriceService._get_full_data_cache_key`. -/
def full_data_cache_key (symbol : String) : String :=
  "stock_full_data:" ++ symbol

/-- `StockPriceService._get_from_supabase`: return the row when
present; when it fails the freshness check, add the symbol to the
background refresh queue and return the row flagged stale
(stale-while-revalidate).  `status` is the market status the source
derives from the wall clock. -/
def get_from_supabase (st : ServiceState) (symbol : String) (now : ℚ)
    (status : MarketStatus) : Option SupabaseResult × ServiceState :=
  match st.supabase with
  | none => (none, st)
  | some table =>
      match supabaseFind table symbol with
      | none => (none, st)
      | some record =>
          if is_supabase_data_fresh now record.last_updated status then
            (some ⟨record.price, record.previous_close,
                   record.last_updated, false⟩, st)
          else
            (some ⟨record.price, record.previous_close,
                   record.last_updated, true⟩,
             { st with refreshQueue := addToSet st.refreshQueue symbol })

/-- `StockPriceService._save_to_supabase`: upsert the row with
`last_updated = now`; no-op when Supabase is not configured. -/
def save_to_supabase (st : ServiceState) (symbol : String) (price : ℚ)
    (previous_close : Option ℚ) (now : ℚ) : ServiceState :=
  match st.supabase with
  | none => st
  | some table =>
      let tableNext := supabaseUpsert table ⟨symbol, price, previous_close, now⟩
      { st with supabase := some tableNext }

/-- Tier 3 of `get_price`: `price = self._fetch_price(symbol)` is the
`fetched` argument (the provider is external).  Positive results are
written to Redis with `REDIS_TTL` and upserted into Supabase (the
source does the upsert on a daemon thread; it is applied synchronously
here); a `None` or non-positive price writes nothing.  The fetched
value is returned unmodified either way. -/
def get_price_tier3 (st : ServiceState) (symbol : String) (now : ℚ)
    (fetched : Option ℚ) : Option ℚ × ServiceState :=
  match fetched with
  | some price =>
      if 0 < price then
        let redisNext := RedisService.set st.redis (price_cache_key symbol)
          ⟨price, now, symbol⟩ REDIS_TTL now
        (some price,
         save_to_supabase { st with redis := redisNext } symbol price none now)
      else (some price, st)
  | none => (none, st)

/-- Tier 2 of `get_price`: on a Supabase hit, write the price through
to Redis with `REDIS_TTL` and return it; otherwise fall to tier 3. -/
def get_price_tier2 (st : ServiceState) (symbol : String)
    (use_cache : Bool) (now : ℚ) (status : MarketStatus)
    (fetched : Option ℚ) : Option ℚ × ServiceState :=
  if use_cache then
    match get_from_supabase st symbol now status with
    | (some data, st1) =>
        let redisNext := RedisService.set st1.redis (price_cache_key symbol)
          ⟨data.price, now, symbol⟩ REDIS_TTL now
        (some data.price, { st1 with redis := redisNext })
    | (none, st1) => get_price_tier3 st1 symbol now fetched
  else get_price_tier3 st symbol now fetched

/-- `StockPriceService.get_price`: normalise the symbol, then Redis →
Supabase → provider.  A Redis hit is served only while its embedded
timestamp is younger than `REDIS_TTL`. -/
def get_price (st : ServiceState) (symbol0 : String) (use_cache : Bool)
    (now : ℚ) (status : MarketStatus) (fetched : Option ℚ) :
    Option ℚ × ServiceState :=
  let symbol := normalize_symbol symbol0
  if use_cache then
    match RedisService.get st.redis (price_cache_key symbol) now with
    | (some data, redisNext) =>
        if now - data.timestamp < (REDIS_TTL : ℚ) then
          (some data.price, { st with redis := redisNext })
        else
          get_price_tier2 { st with redis := redisNext } symbol true now
            status fetched
    | (none, redisNext) =>
        get_price_tier2 { st with redis := redisNext } symbol true now
          status fetched
  else get_price_tier2 st symbol false now status fetched

/-- `StockPriceService.invalidate_cache`: delete the price key and the
full-data key from the Redis service (L1 and L2).  The Supabase table
is not touched. -/
def invalidate_cache (st : ServiceState) (symbol0 : String) : ServiceState :=
  let symbol := normalize_symbol symbol0
  let r1 := RedisService.delete st.redis (price_cache_key symbol)
  let r2 := RedisService.delete r1 (full_data_cache_key symbol)
  { st with redis := r2 }

/-! ## Request coalescer: `StockPriceService._deduplicated_fetch`

Interleaving semantics for one request key (entries for distinct keys
in `_pending_fetches` are independent).  Each block guarded by
`_fetch_lock` is one atomic transition; the unguarded fetch call, the
store, `event.set`, the `event.wait(timeout=30)` expiry of a waiter
and the cleanup deletion are their own transitions.  The semantics
covers the callers of one coalescing window: the window opens when
the first caller inserts the entry, and it ends when the cleanup
thread — spawned by the `finally` block after `event.set()` — deletes
the entry after its one-second grace period (`closed` records this).
A caller that arrives after that deletion inserts a fresh entry and
leads the next window, which is this same semantics restarted from
the insertion; such a caller is therefore left at its entry point
here rather than tracked into the next window.

A waiter blocks in `event.wait(timeout=30)` and afterwards reads
`_pending_fetches.get(request_key)` under the lock whether or not the
event fired: `wakeRead` is the read of a waiter the set event woke,
while `timeoutRead` is the read of a waiter whose 30-second wait
expired — or that was woken but read only after the cleanup grace
period — and so runs with no guard on the event: it returns the
current result slot, which is still the None placeholder when the
leader has not stored yet, or None when the entry is already gone.

The behaviour of `fetch_func` for the window is a parameter: it
either returns an `Optional[float]` or raises. -/

inductive FetchBehavior : Type
  | returns (r : Option ℚ)
  | raises
deriving DecidableEq

/-- What a caller of `_deduplicated_fetch` observes on exit: a returned
`Optional[float]`, or an exception propagating out. -/
inductive Outcome : Type
  | value (v : Option ℚ)
  | raised
deriving DecidableEq

/-- The tuple `(event, result)` stored in `_pending_fetches`: the state
of the `threading.Event` and the result slot (inserted as `None`). -/
structure Entry : Type where
  eventSet : Bool
  result : Option ℚ
deriving DecidableEq

/-- Control point of one caller inside `_deduplicated_fetch`. -/
inductive TState : Type
  | start
  | leader
  | fetched (r : Option ℚ)
  | storedDone (r : Option ℚ)
  | raisedPending
  | waiting
  | done (o : Outcome)
deriving DecidableEq

/-- Owner of the in-flight fetch: past check-and-insert, not yet
signalled. -/
def TState.isOwner : TState → Bool
  | .leader => true
  | .fetched _ => true
  | .storedDone _ => true
  | .raisedPending => true
  | _ => false

/-- Shared state for one request key: the registry slot for the key
(`none` when absent), the number of executions of `fetch_func`,
whether the cleanup thread already deleted the window entry, and the
control points of the callers. -/
structure CoState : Type where
  pending : Option Entry
  fetchCount : ℕ
  closed : Bool
  threads : List TState
deriving DecidableEq

inductive CoLabel : Type
  | enter (i : ℕ)
  | runFetch (i : ℕ)
  | storeResult (i : ℕ)
  | signalRet (i : ℕ)
  | wakeRead (i : ℕ)
  | timeoutRead (i : ℕ)
  | cleanup
deriving DecidableEq

/-- One transition; a label whose guard is not enabled leaves the state
unchanged.
* `enter`: the `_fetch_lock` block that checks-and-inserts; the first
  caller inserts `(event, None)` and becomes the leader, later callers
  become waiters.  After the cleanup deleted the entry, the next
  arrival belongs to the next window and is not tracked further.
* `runFetch`: the leader runs `fetch_func` outside the lock; it either
  returns a value or raises (and then nothing is ever stored).
* `storeResult`: the leader stores `(event, result)` under the lock.
* `signalRet`: the `finally` block sets the event, then the leader
  returns its result or re-raises.
* `wakeRead`: a waiter woken by the set event reads
  `_pending_fetches.get(request_key)` under the lock and returns the
  result slot.
* `timeoutRead`: a waiter whose `event.wait(timeout=30)` expired (or
  that reads only after the cleanup grace period) performs the same
  read with no guard on the event: it returns the current result
  slot — still the None placeholder when the leader has not stored
  yet — or None when the entry is gone.
* `cleanup`: the cleanup thread, started after `event.set()`, deletes
  the entry after its grace period, ending the window. -/
def coStep (beh : FetchBehavior) (s : CoState) (l : CoLabel) : CoState :=
  match l with
  | .enter i =>
      match s.threads.get? i with
      | some .start =>
          match s.pending with
          | none =>
              if s.closed then s
              else
                { s with pending := some ⟨false, none⟩,
                         threads := s.threads.set i .leader }
          | some _ => { s with threads := s.threads.set i .waiting }
      | _ => s
  | .runFetch i =>
      match s.threads.get? i with
      | some .leader =>
          match beh with
          | .returns r =>
              { s with fetchCount := s.fetchCount + 1,
                       threads := s.threads.set i (.fetched r) }
          | .raises =>
              { s with fetchCount := s.fetchCount + 1,
                       threads := s.threads.set i .raisedPending }
      | _ => s
  | .storeResult i =>
      match s.threads.get? i with
      | some (.fetched r) =>
          { s with pending := s.pending.map (fun e => { e with result := r }),
                   threads := s.threads.set i (.storedDone r) }
      | _ => s
  | .signalRet i =>
      match s.threads.get? i with
      | some (.storedDone r) =>
          { s with pending := s.pending.map (fun e => { e with eventSet := true }),
                   threads := s.threads.set i (.done (.value r)) }
      | some .raisedPending =>
          { s with pending := s.pending.map (fun e => { e with eventSet := true }),
                   threads := s.threads.set i (.done .raised) }
      | _ => s
  | .wakeRead i =>
      match s.threads.get? i with
      | some .waiting =>
          match s.pending with
          | some e =>
              if e.eventSet then
                { s with threads := s.threads.set i (.done (.value e.result)) }
              else s
          | none => s
      | _ => s
  | .timeoutRead i =>
      match s.threads.get? i with
      | some .waiting =>
          match s.pending with
          | some e =>
              { s with threads := s.threads.set i (.done (.value e.result)) }
          | none =>
              { s with threads := s.threads.set i (.done (.value none)) }
      | _ => s
  | .cleanup =>
      match s.pending with
      | some e =>
          if e.eventSet then { s with pending := none, closed := true }
          else s
      | none => s

def coRun (beh : FetchBehavior) (s : CoState) : List CoLabel → CoState
  | [] => s
  | l :: ls => coRun beh (coStep beh s l) ls

/-- `n` concurrent callers that all missed every cache tier for the
key: the registry slot is empty and every caller is about to call
`_deduplicated_fetch`. -/
def coInit (n : ℕ) : CoState :=
  ⟨none, 0, false, List.replicate n .start⟩

/-- The result slot the window converges to once stored. -/
def FetchBehavior.res : FetchBehavior → Option ℚ
  | .returns r => r
  | .raises => none

/-- Owner control point right after the fetch ran, before the store. -/
def FetchBehavior.ownerMid : FetchBehavior → TState
  | .returns r => .fetched r
  | .raises => .raisedPending

/-- Owner control point once the result is in the entry (for a raise,
nothing is stored and the owner goes straight to the signal). -/
def FetchBehavior.ownerAfter : FetchBehavior → TState
  | .returns r => .storedDone r
  | .raises => .raisedPending

/-- What the leader itself observes on exit. -/
def FetchBehavior.leaderOutcome : FetchBehavior → Outcome
  | .returns r => .value r
  | .raises => .raised

/-- Inductive invariant of one coalescing window, as the disjunction of
its phases: no entry yet / leader chosen / fetch done, result not yet
stored / result stored / event set / entry cleaned up.  From the second
phase on, waiters whose wait timed out may already be done with the
None placeholder; after the store they may also be done with the
stored result. -/
def CoInv (beh : FetchBehavior) (s : CoState) : Prop :=
  (s.pending = none ∧ s.fetchCount = 0 ∧ s.closed = false ∧
    ∀ j t, s.threads.get? j = some t → t = TState.start)
  ∨
  (s.pending = some ⟨false, none⟩ ∧ s.fetchCount = 0 ∧ s.closed = false ∧
    ∃ i, s.threads.get? i = some TState.leader ∧
      ∀ j t, j ≠ i → s.threads.get? j = some t →
        t = TState.start ∨ t = TState.waiting ∨
        t = TState.done (.value none))
  ∨
  (s.pending = some ⟨false, none⟩ ∧ s.fetchCount = 1 ∧ s.closed = false ∧
    ∃ i, s.threads.get? i = some beh.ownerMid ∧
      ∀ j t, j ≠ i → s.threads.get? j = some t →
        t = TState.start ∨ t = TState.waiting ∨
        t = TState.done (.value none))
  ∨
  (s.pending = some ⟨false, beh.res⟩ ∧ s.fetchCount = 1 ∧ s.closed = false ∧
    ∃ i, s.threads.get? i = some beh.ownerAfter ∧
      ∀ j t, j ≠ i → s.threads.get? j = some t →
        t = TState.start ∨ t = TState.waiting ∨
        t = TState.done (.value none) ∨ t = TState.done (.value beh.res))
  ∨
  (s.pending = some ⟨true, beh.res⟩ ∧ s.fetchCount = 1 ∧ s.closed = false ∧
    ∀ j t, s.threads.get? j = some t →
      t = TState.start ∨ t = TState.waiting ∨
      t = TState.done beh.leaderOutcome ∨
      t = TState.done (.value beh.res) ∨ t = TState.done (.value none))
  ∨
  (s.pending = none ∧ s.fetchCount = 1 ∧ s.closed = true ∧
    ∀ j t, s.threads.get? j = some t →
      t = TState.start ∨ t = TState.waiting ∨
      t = TState.done beh.leaderOutcome ∨
      t = TState.done (.value beh.res) ∨ t = TState.done (.value none))

/-! ## Distributed rate limiter: `_rate_limit_redis`
(thirteen_f_filings_service.py) -/

/-- `SEC_REQ_PER_SECOND = 8`. -/
def SEC_REQ_PER_SECOND : ℕ := 8

inductive RateOutcome : Type
  | permit
  | backoff
deriving DecidableEq

/-- Redis-side state of the per-second windows: counters keyed by the
unix second of the window, and the expiry deadline set on each key. -/
structure RateWindows : Type where
  counts : List (ℕ × ℕ)
  expiries : List (ℕ × ℕ)
deriving DecidableEq

/-- One iteration of the `while True` loop of `_rate_limit_redis`:
INCR the counter of key `sec_rate:<nowSec>` (atomic, creating it at 1),
give the key a 2-second expiry when the INCR created it, then permit
iff the post-increment count is within `SEC_REQ_PER_SECOND`; otherwise
the caller sleeps one second and retries. -/
def rate_limit_step (st : RateWindows) (nowSec : ℕ) :
    RateOutcome × RateWindows :=
  let count := (alookup st.counts nowSec).getD 0 + 1
  let countsNext := aset st.counts nowSec count
  let expiriesNext :=
    if count = 1 then aset st.expiries nowSec (nowSec + 2) else st.expiries
  if count ≤ SEC_REQ_PER_SECOND then (.permit, ⟨countsNext, expiriesNext⟩)
  else (.backoff, ⟨countsNext, expiriesNext⟩)

/-- The full retry loop of `_rate_limit_redis` against an environment:
`env t` is the number of increments other callers have already applied
to the window of second `startSec + t` when this caller INCRs it, so
this caller observes the post-increment count `env t + 1`.  Each
backoff sleeps one second, moving to the next window.  `fuel` bounds
the unrolling; the value returned is the number of one-second sleeps
before the permit, or `none` when no permit happened within `fuel`
iterations. -/
def rate_limit_redis_go (env : ℕ → ℕ) (t : ℕ) : ℕ → Option ℕ
  | 0 => none
  | fuel + 1 =>
      if env t + 1 ≤ SEC_REQ_PER_SECOND then some 0
      else (rate_limit_redis_go env (t + 1) fuel).map (· + 1)

/-- The loop never permits: no amount of fuel makes it return. -/
def rate_limit_never_permits (env : ℕ → ℕ) (t : ℕ) : Prop :=
  ∀ fuel, rate_limit_redis_go env t fuel = none

/-! ## Provider fetch: `StockPriceService._fetch_price` retry loop

`do_fetch` tries `yf.Ticker(symbol).info` up to `_max_retries = 3`
times.  The behaviour of attempt `a` is `env a`: the info dict arrives
(with the three price fields it may carry), or the call raises a
rate-limit error, or it raises some other error. -/

inductive YfAttempt : Type
  | info (currentPrice regularMarketPrice previousClose : Option ℚ)
  | raise429
  | raiseOther
deriving DecidableEq

/-- Python truthiness of an optional float (`None` and `0.0` are
falsy). -/
def pyTruthy (v : Option ℚ) : Bool :=
  match v with
  | none => false
  | some x => decide (x ≠ 0)

/-- `info.get(currentPrice) or info.get(regularMarketPrice) or
info.get(previousClose)`: first truthy operand, else the last
operand. -/
def fieldChain (c r p : Option ℚ) : Option ℚ :=
  if pyTruthy c then c else if pyTruthy r then r else p

/-- The `for attempt in range(maxRetries)` loop of `do_fetch`, from
attempt number `attempt` with `remaining` iterations left.  Returns the
result, the number of attempts made, and the list of backoff sleeps
(`2 ** attempt + jitter` with `jitter = random.random() * 0.5`), taken
only on a rate-limit error before the final attempt.  A price field
that is not `None` returns immediately; an all-`None` chain falls
through to the next attempt; a non-rate-limit error breaks the loop. -/
def do_fetch_go (env : ℕ → YfAttempt) (jitter : ℕ → ℚ) (maxRetries : ℕ) :
    ℕ → ℕ → Option ℚ × ℕ × List ℚ
  | attempt, 0 => (none, attempt, [])
  | attempt, remaining + 1 =>
      match env attempt with
      | .info c r p =>
          match fieldChain c r p with
          | some v => (some v, attempt + 1, [])
          | none => do_fetch_go env jitter maxRetries (attempt + 1) remaining
      | .raise429 =>
          if attempt < maxRetries - 1 then
            let rest := do_fetch_go env jitter maxRetries (attempt + 1) remaining
            (rest.1, rest.2.1, (2 ^ attempt + jitter attempt) :: rest.2.2)
          else do_fetch_go env jitter maxRetries (attempt + 1) remaining
      | .raiseOther => (none, attempt + 1, [])

/-- `do_fetch` with the default `_max_retries = 3`. -/
def do_fetch (env : ℕ → YfAttempt) (jitter : ℕ → ℚ) :
    Option ℚ × ℕ × List ℚ :=
  do_fetch_go env jitter 3 0 3

theorem alookup_aset_self {κ β : Type} [DecidableEq κ]
    (l : List (κ × β)) (k : κ) (v : β) : alookup (aset l k v) k = some v := by
  simp [aset, alookup]

theorem alookup_aset_ne {κ β : Type} [DecidableEq κ]
    (l : List (κ × β)) (k k' : κ) (v : β) (h : k ≠ k') :
    alookup (aset l k v) k' = alookup l k' := by
  induction l with
  | nil => simp [aset, aerase, alookup, h]
  | cons hd tl ih =>
      obtain ⟨hk, hv⟩ := hd
      by_cases hhd : hk = k
      · subst hhd
        simpa [aset, aerase, alookup, h] using ih
      · simp only [aset, aerase, alookup, if_neg hhd] at ih ⊢
        by_cases hk' : hk = k'
        · simp [alookup, hk', h]
        · simpa [alookup, hk', h] using ih

theorem alookup_aerase_self {κ β : Type} [DecidableEq κ]
    (l : List (κ × β)) (k : κ) : alookup (aerase l k) k = none := by
  induction l with
  | nil => simp [aerase, alookup]
  | cons hd tl ih =>
      obtain ⟨hk, hv⟩ := hd
      by_cases hhd : hk = k
      · simpa [aerase, hhd] using ih
      · simpa [aerase, alookup, hhd] using ih

theorem alookup_aerase_ne {κ β : Type} [DecidableEq κ]
    (l : List (κ × β)) (k k' : κ) (h : k ≠ k') :
    alookup (aerase l k) k' = alookup l k' := by
  induction l with
  | nil => simp [aerase]
  | cons hd tl ih =>
      obtain ⟨hk, hv⟩ := hd
      by_cases hhd : hk = k
      · subst hhd
        rw [aerase, if_pos rfl, alookup, if_neg h]
        exact ih
      · by_cases hk' : hk = k'
        · simp [aerase, alookup, hhd, hk', Ne.symm h]
        · simp only [aerase, if_neg hhd, alookup, if_neg hk']
          exact ih

theorem aerase_of_alookup_none {κ β : Type} [DecidableEq κ]
    (l : List (κ × β)) (k : κ) (h : alookup l k = none) : aerase l k = l := by
  induction l with
  | nil => simp [aerase]
  | cons hd tl ih =>
      obtain ⟨hk, hv⟩ := hd
      by_cases hhd : hk = k
      · simp [alookup, hhd] at h
      · simp only [alookup, if_neg hhd] at h
        simp [aerase, hhd, ih h]

theorem alookup_aerase {κ β : Type} [DecidableEq κ]
    (l : List (κ × β)) (k k' : κ) :
    alookup (aerase l k) k' = if k = k' then none else alookup l k' := by
  by_cases h : k = k'
  · subst h; simp [alookup_aerase_self]
  · simp [h, alookup_aerase_ne l k k' h]

theorem alookup_append {κ β : Type} [DecidableEq κ]
    (l1 l2 : List (κ × β)) (k : κ) :
    alookup (l1 ++ l2) k =
      match alookup l1 k with
      | some v => some v
      | none => alookup l2 k := by
  induction l1 with
  | nil => simp [alookup]
  | cons hd tl ih =>
      obtain ⟨hk, hv⟩ := hd
      by_cases h : hk = k
      · simp [alookup, h]
      · simpa [alookup, h] using ih

/-- Claim C10 — `InMemoryCache.get` serves a stored value only while
its expiry lies strictly in the future; an entry at or past its expiry
is deleted during the lookup and nothing is returned, so L1 never
serves a value past its TTL. -/
theorem inmemory_get_never_serves_expired {α : Type} (c : InMemoryCache α)
    (key : String) (now : ℚ) :
    (∀ v cNext, InMemoryCache.get c key now = (some v, cNext) →
       ∃ item, alookup c key = some item ∧ now < item.expires_at ∧
         v = item.value ∧ cNext = c) ∧
    (∀ item, alookup c key = some item → item.expires_at ≤ now →
       InMemoryCache.get c key now = (none, aerase c key) ∧
       alookup (aerase c key) key = none) := by
  constructor
  · intro v cNext h
    unfold InMemoryCache.get at h
    cases hl : alookup c key with
    | none => rw [hl] at h; simp at h
    | some item =>
        rw [hl] at h
        dsimp only at h
        by_cases hexp : now < item.expires_at
        · rw [if_pos hexp] at h
          obtain ⟨h1, h2⟩ := Prod.mk.injEq .. ▸ h
          exact ⟨item, rfl, hexp, (Option.some.injEq .. ▸ h1).symm, h2.symm⟩
        · rw [if_neg hexp] at h
          simp at h
  · intro item hl hexp
    unfold InMemoryCache.get
    rw [hl]
    dsimp only
    rw [if_neg (not_lt.mpr hexp)]
    exact ⟨rfl, alookup_aerase_self c key⟩

/-- Witness for C10 at a concrete cache: an entry whose expiry equals
the clock is deleted and not served. -/
theorem inmemory_get_never_serves_expired_witness :
    InMemoryCache.get [("k", (⟨5, 10⟩ : CacheItem ℚ))] "k" 10 =
      (none, aerase [("k", (⟨5, 10⟩ : CacheItem ℚ))] "k") ∧
    alookup (aerase [("k", (⟨5, 10⟩ : CacheItem ℚ))] "k") "k" = none :=
  (inmemory_get_never_serves_expired [("k", (⟨5, 10⟩ : CacheItem ℚ))] "k"
    10).2 ⟨5, 10⟩ (by decide) (by decide)

/-- Claim C4 — one iteration of `_rate_limit_redis` permits the
outbound request exactly when the atomically post-incremented counter
of the current second is at most the quota of 8; the key receives a
2-second expiry exactly when the increment created the counter; and
the iteration backs off exactly when the post-increment count exceeds
the quota, so the count never exceeds the quota without triggering
backoff. -/
theorem rate_limit_step_spec (st : RateWindows) (nowSec : ℕ) :
    ((rate_limit_step st nowSec).1 = RateOutcome.permit ↔
       (alookup st.counts nowSec).getD 0 + 1 ≤ SEC_REQ_PER_SECOND) ∧
    alookup (rate_limit_step st nowSec).2.counts nowSec =
      some ((alookup st.counts nowSec).getD 0 + 1) ∧
    alookup (rate_limit_step st nowSec).2.expiries nowSec =
      (if (alookup st.counts nowSec).getD 0 + 1 = 1 then some (nowSec + 2)
       else alookup st.expiries nowSec) ∧
    ((rate_limit_step st nowSec).1 = RateOutcome.backoff ↔
       SEC_REQ_PER_SECOND < (alookup st.counts nowSec).getD 0 + 1) := by
  unfold rate_limit_step
  by_cases hq : (alookup st.counts nowSec).getD 0 + 1 ≤ SEC_REQ_PER_SECOND
  · refine ⟨by simp [hq], ?_, ?_, by simp [hq, not_lt.mpr hq]⟩
    · simp [hq, alookup_aset_self]
    · by_cases h1 : (alookup st.counts nowSec).getD 0 + 1 = 1
      · simp [hq, h1, SEC_REQ_PER_SECOND, alookup_aset_self]
      · simp [hq, h1]
  · refine ⟨by simp [hq], ?_, ?_, by simp [hq, lt_of_not_le hq]⟩
    · simp [hq, alookup_aset_self]
    · by_cases h1 : (alookup st.counts nowSec).getD 0 + 1 = 1
      · rw [h1] at hq
        exact absurd (by norm_num [SEC_REQ_PER_SECOND]) hq
      · simp [hq, h1]

/-- Claim C9 — when the tier-3 provider fetch of `get_price` yields
nothing or a non-positive price, no cache tier is modified (the whole
service state is returned unchanged) and the caller receives the
fetched value unmodified. -/
theorem get_price_tier3_failure_no_write (st : ServiceState)
    (symbol : String) (now : ℚ) (status : MarketStatus)
    (fetched : Option ℚ)
    (h : fetched = none ∨ ∃ p, fetched = some p ∧ p ≤ 0) :
    get_price st symbol false now status fetched = (fetched, st) := by
  rcases h with h | ⟨p, hp, hle⟩
  · subst h; rfl
  · subst hp
    simp [get_price, get_price_tier2, get_price_tier3, not_lt.mpr hle]

/-- Witness for C9: a fetch that returns a non-positive price leaves a
concrete service state untouched. -/
theorem get_price_tier3_failure_no_write_witness :
    get_price ⟨⟨[], [], false⟩, none, []⟩ "AAPL" false 0 MarketStatus.OPEN
      (some (-3)) = (some (-3), ⟨⟨[], [], false⟩, none, []⟩) :=
  get_price_tier3_failure_no_write ⟨⟨[], [], false⟩, none, []⟩ "AAPL" 0
    MarketStatus.OPEN (some (-3)) (Or.inr ⟨-3, rfl, by norm_num⟩)

/-- Claim C3 — a Supabase (L3) record aged 30 minutes is fresh under a
CLOSED market (window 3600 s) and is returned as valid; under an OPEN
market (window 300 s) the same record is stale, is still returned but
flagged stale, and the symbol is scheduled for background refresh
exactly once (re-scheduling the already-queued symbol is a no-op). -/
theorem supabase_staleness_policy (st : ServiceState)
    (table : List StockRecord) (record : StockRecord) (symbol : String)
    (now : ℚ) (hsup : st.supabase = some table)
    (hfind : supabaseFind table symbol = some record)
    (hage : now - record.last_updated = 1800)
    (hq : symbol ∉ st.refreshQueue) :
    is_supabase_data_fresh now record.last_updated MarketStatus.CLOSED = true ∧
    get_from_supabase st symbol now MarketStatus.CLOSED =
      (some ⟨record.price, record.previous_close, record.last_updated, false⟩,
       st) ∧
    is_supabase_data_fresh now record.last_updated MarketStatus.OPEN = false ∧
    get_from_supabase st symbol now MarketStatus.OPEN =
      (some ⟨record.price, record.previous_close, record.last_updated, true⟩,
       { st with refreshQueue := st.refreshQueue ++ [symbol] }) ∧
    (st.refreshQueue ++ [symbol]).count symbol = 1 ∧
    addToSet (st.refreshQueue ++ [symbol]) symbol =
      st.refreshQueue ++ [symbol] := by
  have hsub : now - record.last_updated = 1800 := hage
  have hfreshC :
      is_supabase_data_fresh now record.last_updated MarketStatus.CLOSED
        = true := by
    simp only [is_supabase_data_fresh, get_appropriate_supabase_ttl,
      SUPABASE_TTL_MARKET_CLOSED, hsub, decide_eq_true_eq]
    norm_num
  have hstaleO :
      is_supabase_data_fresh now record.last_updated MarketStatus.OPEN
        = false := by
    simp only [is_supabase_data_fresh, get_appropriate_supabase_ttl,
      SUPABASE_TTL_MARKET_OPEN, hsub, decide_eq_false_iff_not]
    norm_num
  refine ⟨hfreshC, ?_, hstaleO, ?_, ?_, ?_⟩
  · unfold get_from_supabase
    rw [hsup]
    dsimp only
    rw [hfind]
    dsimp only
    rw [hfreshC]
    simp
  · unfold get_from_supabase
    rw [hsup]
    dsimp only
    rw [hfind]
    dsimp only
    rw [hstaleO]
    simp [addToSet, hq]
  · rw [List.count_append]
    rw [List.count_eq_zero.mpr hq]
    simp
  · simp [addToSet]

/-- Witness for C3 at a concrete state: a record written 1800 seconds
ago, empty refresh queue. -/
theorem supabase_staleness_policy_witness :
    is_supabase_data_fresh 1800 0 MarketStatus.CLOSED = true ∧
    is_supabase_data_fresh 1800 0 MarketStatus.OPEN = false ∧
    get_from_supabase ⟨⟨[], [], true⟩, some [⟨"AAPL", 100, none, 0⟩], []⟩
        "AAPL" 1800 MarketStatus.OPEN =
      (some ⟨100, none, 0, true⟩,
       ⟨⟨[], [], true⟩, some [⟨"AAPL", 100, none, 0⟩], ["AAPL"]⟩) := by
  have h := supabase_staleness_policy
    ⟨⟨[], [], true⟩, some [⟨"AAPL", 100, none, 0⟩], []⟩
    [⟨"AAPL", 100, none, 0⟩] ⟨"AAPL", 100, none, 0⟩ "AAPL" 1800 rfl
    (by decide) (by norm_num) (by decide)
  exact ⟨h.1, h.2.2.1, h.2.2.2.1⟩

/-- Claim C5 (amended) — the `_fetch_price` retry loop makes at most
`_max_retries = 3` primary attempts for any attempt behaviour, and
when the primary is rate-limited on every attempt the orchestrator
sleeps the exponential backoffs `2 ^ 0 + jitter` and `2 ^ 1 + jitter`
between attempts and returns `none`: there is no secondary provider
whose result could be served. -/
theorem fetch_price_retry_bound_and_no_secondary :
    (∀ env jitter, (do_fetch env jitter).2.1 ≤ 3) ∧
    (∀ jitter, do_fetch (fun _ => YfAttempt.raise429) jitter =
       (none, 3, [2 ^ (0 : ℕ) + jitter 0, 2 ^ (1 : ℕ) + jitter 1])) := by
  constructor
  · have go_bound : ∀ (env : ℕ → YfAttempt) (jitter : ℕ → ℚ)
        (mr rem a : ℕ), (do_fetch_go env jitter mr a rem).2.1 ≤ a + rem := by
      intro env jitter mr rem
      induction rem with
      | zero => intro a; simp [do_fetch_go]
      | succ n ih =>
          intro a
          have hih := ih (a + 1)
          simp only [do_fetch_go]
          cases henv : env a with
          | info c r p =>
              cases hfc : fieldChain c r p with
              | some v => simp only [hfc]; omega
              | none => simp only [hfc]; omega
          | raise429 =>
              by_cases hlt : a < mr - 1
              · simp only [hlt, if_true]
                omega
              · simp only [hlt, if_false]
                omega
          | raiseOther => dsimp only; omega
    intro env jitter
    exact go_bound env jitter 3 3 0
  · intro jitter
    rfl

/-- Counterexample to C5 as stated: with a primary provider that
returns 429 on every attempt, the fetch result is `none`, so it does
not equal the result a secondary provider holding the price 5 for the
key would give — no secondary provider is consulted. -/
theorem fetch_price_no_secondary_counterexample :
    (do_fetch (fun _ => YfAttempt.raise429) (fun _ => 0)).1 = none ∧
    (do_fetch (fun _ => YfAttempt.raise429) (fun _ => 0)).1 ≠ some 5 := by
  refine ⟨rfl, ?_⟩
  intro h
  have hne : (none : Option ℚ) = some 5 := h
  exact Option.noConfusion hne

/-- Helper for C7: under an environment in which eight other callers
fill the window of every second first, no iteration of the retry loop ever
observes a count within quota. -/
theorem rate_limit_go_none_of_full (fuel t : ℕ) :
    rate_limit_redis_go (fun _ => 8) t fuel = none := by
  induction fuel generalizing t with
  | zero => rfl
  | succ n ih => simp [rate_limit_redis_go, SEC_REQ_PER_SECOND, ih]

/-- Counterexample to C7 as stated: `_rate_limit_redis` has no bound on
its internal waits and never returns an error — under a concrete
environment that always fills the per-second quota first, the loop
never permits, however much fuel it is given. -/
theorem rate_limit_redis_unbounded_counterexample :
    rate_limit_never_permits (fun _ => 8) 0 :=
  fun fuel => rate_limit_go_none_of_full fuel 0

/-- Claim C7 (amended) — each iteration of `_rate_limit_redis` either
permits (post-increment count within quota) or sleeps one second and
retries the next window; the loop terminates, with at most `k` waits,
whenever some window within `k` retries has spare quota, but there is
no a-priori bound and no error return. -/
theorem rate_limit_redis_terminates_of_spare_quota (env : ℕ → ℕ)
    (t k : ℕ) (h : env (t + k) + 1 ≤ SEC_REQ_PER_SECOND) :
    ∃ j, j ≤ k ∧ rate_limit_redis_go env t (k + 1) = some j := by
  have unfold1 : ∀ (e : ℕ → ℕ) (s fuel : ℕ),
      rate_limit_redis_go e s (fuel + 1) =
        if e s + 1 ≤ SEC_REQ_PER_SECOND then some 0
        else (rate_limit_redis_go e (s + 1) fuel).map (· + 1) :=
    fun _ _ _ => rfl
  induction k generalizing t with
  | zero =>
      have h0 : env t + 1 ≤ SEC_REQ_PER_SECOND := by simpa using h
      exact ⟨0, le_refl 0, by rw [unfold1, if_pos h0]⟩
  | succ k ih =>
      by_cases h0 : env t + 1 ≤ SEC_REQ_PER_SECOND
      · exact ⟨0, Nat.zero_le _, by rw [unfold1, if_pos h0]⟩
      · have h' : env ((t + 1) + k) + 1 ≤ SEC_REQ_PER_SECOND := by
          rw [show t + 1 + k = t + (k + 1) by omega]
          exact h
        obtain ⟨j, hj, hrun⟩ := ih (t + 1) h'
        refine ⟨j + 1, by omega, ?_⟩
        rw [unfold1, if_neg h0, hrun]
        rfl

/-- Witness for C7 (amended): with no contention the first iteration
permits with zero waits. -/
theorem rate_limit_redis_terminates_witness :
    ∃ j, j ≤ 0 ∧ rate_limit_redis_go (fun _ => 0) 0 1 = some j :=
  rate_limit_redis_terminates_of_spare_quota (fun _ => 0) 0 0 (by decide)

theorem price_key_ne_full_data_key (s : String) :
    price_cache_key s ≠ full_data_cache_key s := by
  intro h
  have hlen := congrArg String.length h
  rw [price_cache_key, full_data_cache_key, String.length_append,
    String.length_append] at hlen
  have h1 : ("stock_price:").length = 12 := rfl
  have h2 : ("stock_full_data:").length = 16 := rfl
  rw [h1, h2] at hlen
  omega

theorem aerase_pair_idem {κ β : Type} [DecidableEq κ]
    (l : List (κ × β)) (k1 k2 : κ) :
    aerase (aerase (aerase (aerase l k1) k2) k1) k2 =
      aerase (aerase l k1) k2 := by
  have h1 : alookup (aerase (aerase l k1) k2) k1 = none := by
    by_cases h : k2 = k1
    · subst h; exact alookup_aerase_self _ _
    · rw [alookup_aerase_ne _ _ _ h]
      exact alookup_aerase_self _ _
  rw [aerase_of_alookup_none _ _ h1]
  exact aerase_of_alookup_none _ _ (alookup_aerase_self _ _)

/-- Counterexample to C8 as stated: invalidating a concrete state whose
durable store holds a row for the symbol leaves that L3 row in place —
the keys are not absent across all three tiers. -/
theorem invalidate_cache_l3_counterexample :
    (invalidate_cache ⟨⟨[], [], true⟩, some [⟨"AAPL", 100, none, 0⟩], []⟩
        "AAPL").supabase = some [⟨"AAPL", 100, none, 0⟩] ∧
    supabaseFind
        ((invalidate_cache ⟨⟨[], [], true⟩, some [⟨"AAPL", 100, none, 0⟩], []⟩
          "AAPL").supabase.getD []) "AAPL" = some ⟨"AAPL", 100, none, 0⟩ :=
  ⟨rfl, by decide⟩

/-- Claim C8 (amended) — `invalidate_cache` is idempotent and leaves
the price and full-data keys for the symbol absent from L1 and from L2
(when a Redis client is configured); the Supabase (L3) tier and the
refresh queue are not touched, so the L3 row for the symbol
survives. -/
theorem invalidate_cache_idempotent_clears_l1_l2
    (st : ServiceState) (symbol0 : String) :
    invalidate_cache (invalidate_cache st symbol0) symbol0 =
      invalidate_cache st symbol0 ∧
    alookup (invalidate_cache st symbol0).redis.l1
      (price_cache_key (normalize_symbol symbol0)) = none ∧
    alookup (invalidate_cache st symbol0).redis.l1
      (full_data_cache_key (normalize_symbol symbol0)) = none ∧
    (st.redis.hasClient = true →
      alookup (invalidate_cache st symbol0).redis.l2
        (price_cache_key (normalize_symbol symbol0)) = none ∧
      alookup (invalidate_cache st symbol0).redis.l2
        (full_data_cache_key (normalize_symbol symbol0)) = none) ∧
    (invalidate_cache st symbol0).supabase = st.supabase ∧
    (invalidate_cache st symbol0).refreshQueue = st.refreshQueue := by
  obtain ⟨⟨l1, l2, hc⟩, sup, q⟩ := st
  have hpf : price_cache_key (normalize_symbol symbol0) ≠
      full_data_cache_key (normalize_symbol symbol0) :=
    price_key_ne_full_data_key _
  cases hc with
  | false =>
      simp only [invalidate_cache, RedisService.delete, InMemoryCache.delete,
        Bool.false_eq_true, if_false]
      refine ⟨?_, ?_, ?_, ?_, trivial, trivial⟩
      · simp [aerase_pair_idem]
      · rw [alookup_aerase_ne _ _ _ (Ne.symm hpf)]
        exact alookup_aerase_self _ _
      · exact alookup_aerase_self _ _
      · intro h
        exact absurd h (by simp)
  | true =>
      simp only [invalidate_cache, RedisService.delete, InMemoryCache.delete,
        if_true]
      refine ⟨?_, ?_, ?_, ?_, trivial, trivial⟩
      · simp [aerase_pair_idem]
      · rw [alookup_aerase_ne _ _ _ (Ne.symm hpf)]
        exact alookup_aerase_self _ _
      · exact alookup_aerase_self _ _
      · intro _
        constructor
        · rw [alookup_aerase_ne _ _ _ (Ne.symm hpf)]
          exact alookup_aerase_self _ _
        · exact alookup_aerase_self _ _

/-- Witness for C8 (amended) at a concrete state with a Redis client:
the L2 bindings for both keys are gone after invalidation. -/
theorem invalidate_cache_idempotent_clears_l1_l2_witness :
    alookup (invalidate_cache
        ⟨⟨[], [(price_cache_key "AAPL", ⟨⟨100, 0, "AAPL"⟩, 90⟩)], true⟩,
         none, []⟩ "AAPL").redis.l2
      (price_cache_key (normalize_symbol "AAPL")) = none ∧
    alookup (invalidate_cache
        ⟨⟨[], [(price_cache_key "AAPL", ⟨⟨100, 0, "AAPL"⟩, 90⟩)], true⟩,
         none, []⟩ "AAPL").redis.l2
      (full_data_cache_key (normalize_symbol "AAPL")) = none :=
  (invalidate_cache_idempotent_clears_l1_l2
    ⟨⟨[], [(price_cache_key "AAPL", ⟨⟨100, 0, "AAPL"⟩, 90⟩)], true⟩,
     none, []⟩ "AAPL").2.2.2.1 rfl

theorem alookup_foldl_aset {α β : Type} (f : String × α → β)
    (items : List (String × α)) (c : List (String × β)) (k : String) :
    alookup (items.foldl (fun acc kv => aset acc kv.1 (f kv)) c) k =
      match lastLookup items k with
      | some v => some (f (k, v))
      | none => alookup c k := by
  induction items generalizing c with
  | nil => simp [lastLookup, alookup]
  | cons kv rest ih =>
      obtain ⟨k0, v0⟩ := kv
      simp only [List.foldl_cons]
      rw [ih]
      have hrev : lastLookup ((k0, v0) :: rest) k =
          match lastLookup rest k with
          | some v => some v
          | none => if k0 = k then some v0 else none := by
        unfold lastLookup
        rw [List.reverse_cons, alookup_append]
        cases alookup rest.reverse k <;> simp [alookup]
      rw [hrev]
      cases hl : lastLookup rest k with
      | some v => simp
      | none =>
          dsimp only
          by_cases hk : k0 = k
          · subst hk
            simp [alookup_aset_self]
          · simp [alookup_aset_ne _ _ _ _ hk, hk]

theorem alookup_foldl_set_item {α : Type} (e : ℚ)
    (items : List (String × α)) (c : List (String × CacheItem α))
    (k : String) :
    alookup (items.foldl (fun acc kv => aset acc kv.1 ⟨kv.2, e⟩) c) k =
      match lastLookup items k with
      | some v => some ⟨v, e⟩
      | none => alookup c k :=
  alookup_foldl_aset (fun kv => (⟨kv.2, e⟩ : CacheItem α)) items c k

theorem redis_get_full_miss {α : Type}
    (l1 : InMemoryCache α) (l2 : List (String × CacheItem α))
    (key : String) (now : ℚ) (h1 : alookup l1 key = none)
    (h2 : alookup l2 key = none) :
    RedisService.get (⟨l1, l2, true⟩ : RedisState α) key now =
      (none, ⟨l1, l2, true⟩) := by
  unfold RedisService.get InMemoryCache.get
  rw [h1]
  dsimp only
  rw [h2]
  simp

/-- Claim C6 — tier promotion caps TTLs: `RedisService.set` and
`set_multi` put every value into L1 with expiry `now + min ttl l1_ttl`
(the requested TTL capped at the L1 maximum of 60 s); a Supabase (L3)
hit inside `get_price` writes the price through to L2 with the
configured `REDIS_TTL` and to L1 with `min REDIS_TTL l1_ttl`, the
entry is an immediate L1 hit, and a second `get_price` at the same
instant returns the price from L1 leaving the state unchanged. -/
theorem tier_promotion_ttl_caps {α : Type} :
    (∀ (stR : RedisState α) (key : String) (v : α) (ttl : ℕ) (now : ℚ),
       alookup (RedisService.set stR key v ttl now).l1 key =
         some ⟨v, now + ((min ttl l1_ttl : ℕ) : ℚ)⟩) ∧
    (∀ (stR : RedisState α) (items : List (String × α)) (ttl : ℕ)
       (now : ℚ) (key : String) (v : α), lastLookup items key = some v →
       alookup (RedisService.set_multi stR items ttl now).l1 key =
         some ⟨v, now + ((min ttl l1_ttl : ℕ) : ℚ)⟩) ∧
    (∀ (l1 : InMemoryCache PriceCacheData)
       (l2 : List (String × CacheItem PriceCacheData))
       (sup : Option (List StockRecord)) (q : List String)
       (symbol : String) (now : ℚ) (status : MarketStatus)
       (fetched : Option ℚ) (table : List StockRecord)
       (record : StockRecord),
       normalize_symbol symbol = symbol →
       alookup l1 (price_cache_key symbol) = none →
       alookup l2 (price_cache_key symbol) = none →
       sup = some table →
       supabaseFind table symbol = some record →
       is_supabase_data_fresh now record.last_updated status = true →
       get_price ⟨⟨l1, l2, true⟩, sup, q⟩ symbol true now status fetched =
         (some record.price,
          ⟨⟨aset l1 (price_cache_key symbol)
              ⟨⟨record.price, now, symbol⟩,
               now + ((min REDIS_TTL l1_ttl : ℕ) : ℚ)⟩,
            aset l2 (price_cache_key symbol)
              ⟨⟨record.price, now, symbol⟩, now + ((REDIS_TTL : ℕ) : ℚ)⟩,
            true⟩, sup, q⟩) ∧
       (InMemoryCache.get
           (aset l1 (price_cache_key symbol)
             ⟨⟨record.price, now, symbol⟩,
              now + ((min REDIS_TTL l1_ttl : ℕ) : ℚ)⟩)
           (price_cache_key symbol) now).1 =
         some ⟨record.price, now, symbol⟩ ∧
       get_price
           ⟨⟨aset l1 (price_cache_key symbol)
               ⟨⟨record.price, now, symbol⟩,
                now + ((min REDIS_TTL l1_ttl : ℕ) : ℚ)⟩,
             aset l2 (price_cache_key symbol)
               ⟨⟨record.price, now, symbol⟩, now + ((REDIS_TTL : ℕ) : ℚ)⟩,
             true⟩, sup, q⟩ symbol true now status fetched =
         (some record.price,
          ⟨⟨aset l1 (price_cache_key symbol)
              ⟨⟨record.price, now, symbol⟩,
               now + ((min REDIS_TTL l1_ttl : ℕ) : ℚ)⟩,
            aset l2 (price_cache_key symbol)
              ⟨⟨record.price, now, symbol⟩, now + ((REDIS_TTL : ℕ) : ℚ)⟩,
            true⟩, sup, q⟩)) := by
  refine ⟨?_, ?_, ?_⟩
  · intro stR key v ttl now
    unfold RedisService.set InMemoryCache.set
    by_cases hc : stR.hasClient
    · simp only [hc, if_true]
      exact alookup_aset_self _ _ _
    · simp only [hc, if_false, Bool.false_eq_true]
      exact alookup_aset_self _ _ _
  · intro stR items ttl now key v hlast
    unfold RedisService.set_multi InMemoryCache.set
    dsimp only
    rw [alookup_foldl_set_item, hlast]
  · intro l1 l2 sup q symbol now status fetched table record hnorm hl1 hl2
      hsup hfind hfresh
    subst hsup
    have hhit : InMemoryCache.get
        (aset l1 (price_cache_key symbol)
          ⟨⟨record.price, now, symbol⟩,
           now + ((min REDIS_TTL l1_ttl : ℕ) : ℚ)⟩)
        (price_cache_key symbol) now =
        (some ⟨record.price, now, symbol⟩,
         aset l1 (price_cache_key symbol)
           ⟨⟨record.price, now, symbol⟩,
            now + ((min REDIS_TTL l1_ttl : ℕ) : ℚ)⟩) := by
      unfold InMemoryCache.get
      rw [alookup_aset_self]
      dsimp only
      rw [if_pos]
      norm_num [REDIS_TTL, l1_ttl]
    have hfirst : get_price ⟨⟨l1, l2, true⟩, some table, q⟩ symbol true now
        status fetched =
        (some record.price,
         ⟨⟨aset l1 (price_cache_key symbol)
             ⟨⟨record.price, now, symbol⟩,
              now + ((min REDIS_TTL l1_ttl : ℕ) : ℚ)⟩,
           aset l2 (price_cache_key symbol)
             ⟨⟨record.price, now, symbol⟩, now + ((REDIS_TTL : ℕ) : ℚ)⟩,
           true⟩, some table, q⟩) := by
      unfold get_price get_price_tier2 get_from_supabase RedisService.set
        InMemoryCache.set
      simp only [hnorm, redis_get_full_miss l1 l2 (price_cache_key symbol)
        now hl1 hl2, hfind, hfresh, eq_self_iff_true, if_true]
    refine ⟨hfirst, by rw [hhit], ?_⟩
    have hget2 : RedisService.get
        (⟨aset l1 (price_cache_key symbol)
            ⟨⟨record.price, now, symbol⟩,
             now + ((min REDIS_TTL l1_ttl : ℕ) : ℚ)⟩,
          aset l2 (price_cache_key symbol)
            ⟨⟨record.price, now, symbol⟩, now + ((REDIS_TTL : ℕ) : ℚ)⟩,
          true⟩ : RedisState PriceCacheData) (price_cache_key symbol) now =
        (some ⟨record.price, now, symbol⟩,
         ⟨aset l1 (price_cache_key symbol)
            ⟨⟨record.price, now, symbol⟩,
             now + ((min REDIS_TTL l1_ttl : ℕ) : ℚ)⟩,
          aset l2 (price_cache_key symbol)
            ⟨⟨record.price, now, symbol⟩, now + ((REDIS_TTL : ℕ) : ℚ)⟩,
          true⟩) := by
      unfold RedisService.get
      dsimp only
      rw [hhit]
    have hage : now - now < ((REDIS_TTL : ℕ) : ℚ) := by
      rw [sub_self]
      norm_num [REDIS_TTL]
    unfold get_price
    simp only [hnorm, hget2, eq_self_iff_true, if_true]
    rw [if_pos hage]

/-- Witness for C6 at a concrete state: empty Redis tiers, a fresh L3
row for AAPL, market CLOSED. -/
theorem tier_promotion_ttl_caps_witness :
    get_price ⟨⟨[], [], true⟩, some [⟨"AAPL", 100, none, 0⟩], []⟩ "AAPL"
        true 10 MarketStatus.CLOSED none =
      (some 100,
       ⟨⟨aset [] (price_cache_key "AAPL")
           ⟨⟨100, 10, "AAPL"⟩, 10 + ((min REDIS_TTL l1_ttl : ℕ) : ℚ)⟩,
         aset [] (price_cache_key "AAPL")
           ⟨⟨100, 10, "AAPL"⟩, 10 + ((REDIS_TTL : ℕ) : ℚ)⟩,
         true⟩, some [⟨"AAPL", 100, none, 0⟩], []⟩) ∧
    (InMemoryCache.get
        (aset ([] : InMemoryCache PriceCacheData) (price_cache_key "AAPL")
          ⟨⟨100, 10, "AAPL"⟩, 10 + ((min REDIS_TTL l1_ttl : ℕ) : ℚ)⟩)
        (price_cache_key "AAPL") 10).1 = some ⟨100, 10, "AAPL"⟩ := by
  have h := (@tier_promotion_ttl_caps PriceCacheData).2.2 [] []
    (some [⟨"AAPL", 100, none, 0⟩]) [] "AAPL" 10 MarketStatus.CLOSED none
    [⟨"AAPL", 100, none, 0⟩] ⟨"AAPL", 100, none, 0⟩ (by decide) rfl rfl rfl
    (by decide)
    (by norm_num [is_supabase_data_fresh, get_appropriate_supabase_ttl,
      SUPABASE_TTL_MARKET_CLOSED])
  exact ⟨h.1, h.2.1⟩

theorem get?_set_self_of_get? {α : Type} {l : List α} {i : ℕ} {b : α}
    (hb : l.get? i = some b) (a : α) : (l.set i a).get? i = some a :=
  List.get?_set_eq_of_lt a ((List.get?_eq_some.1 hb).1)

theorem coInv_init (beh : FetchBehavior) (n : ℕ) : CoInv beh (coInit n) :=
  Or.inl ⟨rfl, rfl, rfl, fun _ _ hjt =>
    List.eq_of_mem_replicate (List.get?_mem hjt)⟩

theorem coInv_step (beh : FetchBehavior) (s : CoState) (l : CoLabel)
    (h : CoInv beh s) : CoInv beh (coStep beh s l) := by
  cases l with
  | enter i =>
      cases hti : s.threads.get? i with
      | none =>
          have hstep : coStep beh s (.enter i) = s := by
            unfold coStep
            dsimp only
            rw [hti]
          rw [hstep]
          exact h
      | some t =>
          cases t with
          | start =>
              cases hp : s.pending with
              | none =>
                  rcases h with ⟨h1, h2, h3, h4⟩ | ⟨h1, _⟩ | ⟨h1, _⟩ |
                    ⟨h1, _⟩ | ⟨h1, _⟩ | ⟨h1, h2, h3, hall⟩
                  · have hstep : coStep beh s (.enter i) =
                        { s with pending := some ⟨false, none⟩,
                                 threads := s.threads.set i TState.leader } := by
                      unfold coStep
                      dsimp only
                      rw [hti]
                      dsimp only
                      rw [hp]
                      dsimp only
                      rw [h3]
                      rw [if_neg Bool.false_ne_true]
                    rw [hstep]
                    refine Or.inr (Or.inl ⟨rfl, h2, h3, i,
                      get?_set_self_of_get? hti _, ?_⟩)
                    intro j t hj hjt
                    rw [List.get?_set_ne _ _ (Ne.symm hj)] at hjt
                    exact Or.inl (h4 j t hjt)
                  · rw [h1] at hp; cases hp
                  · rw [h1] at hp; cases hp
                  · rw [h1] at hp; cases hp
                  · rw [h1] at hp; cases hp
                  · have hstep : coStep beh s (.enter i) = s := by
                      unfold coStep
                      dsimp only
                      rw [hti]
                      dsimp only
                      rw [hp]
                      dsimp only
                      rw [h3]
                      rw [if_pos rfl]
                    rw [hstep]
                    exact Or.inr (Or.inr (Or.inr (Or.inr (Or.inr
                      ⟨h1, h2, h3, hall⟩))))
              | some e =>
                  have hstep : coStep beh s (.enter i) =
                      { s with threads := s.threads.set i TState.waiting } := by
                    unfold coStep
                    dsimp only
                    rw [hti]
                    dsimp only
                    rw [hp]
                  rw [hstep]
                  rcases h with ⟨h1, _, _⟩ | ⟨h1, h2, h3, il, hil, hrest⟩ |
                    ⟨h1, h2, h3, il, hil, hrest⟩ |
                    ⟨h1, h2, h3, il, hil, hrest⟩ |
                    ⟨h1, h2, h3, hall⟩ | ⟨h1, _, _⟩
                  · rw [h1] at hp; cases hp
                  · have hne : i ≠ il := by
                      intro hEq
                      rw [hEq, hil] at hti
                      simp at hti
                    refine Or.inr (Or.inl ⟨h1, h2, h3, il, ?_, ?_⟩)
                    · rw [List.get?_set_ne _ _ hne]
                      exact hil
                    · intro j t hj hjt
                      by_cases hji : j = i
                      · subst hji
                        rw [get?_set_self_of_get? hti _] at hjt
                        cases hjt
                        exact Or.inr (Or.inl rfl)
                      · rw [List.get?_set_ne _ _ (fun hEq => hji hEq.symm)]
                          at hjt
                        exact hrest j t hj hjt
                  · have hne : i ≠ il := by
                      intro hEq
                      rw [hEq, hil] at hti
                      cases beh <;> simp [FetchBehavior.ownerMid] at hti
                    refine Or.inr (Or.inr (Or.inl ⟨h1, h2, h3, il, ?_, ?_⟩))
                    · rw [List.get?_set_ne _ _ hne]
                      exact hil
                    · intro j t hj hjt
                      by_cases hji : j = i
                      · subst hji
                        rw [get?_set_self_of_get? hti _] at hjt
                        cases hjt
                        exact Or.inr (Or.inl rfl)
                      · rw [List.get?_set_ne _ _ (fun hEq => hji hEq.symm)]
                          at hjt
                        exact hrest j t hj hjt
                  · have hne : i ≠ il := by
                      intro hEq
                      rw [hEq, hil] at hti
                      cases beh <;> simp [FetchBehavior.ownerAfter] at hti
                    refine Or.inr (Or.inr (Or.inr (Or.inl
                      ⟨h1, h2, h3, il, ?_, ?_⟩)))
                    · rw [List.get?_set_ne _ _ hne]
                      exact hil
                    · intro j t hj hjt
                      by_cases hji : j = i
                      · subst hji
                        rw [get?_set_self_of_get? hti _] at hjt
                        cases hjt
                        exact Or.inr (Or.inl rfl)
                      · rw [List.get?_set_ne _ _ (fun hEq => hji hEq.symm)]
                          at hjt
                        exact hrest j t hj hjt
                  · refine Or.inr (Or.inr (Or.inr (Or.inr (Or.inl
                      ⟨h1, h2, h3, ?_⟩))))
                    intro j t hjt
                    by_cases hji : j = i
                    · subst hji
                      rw [get?_set_self_of_get? hti _] at hjt
                      cases hjt
                      exact Or.inr (Or.inl rfl)
                    · rw [List.get?_set_ne _ _ (fun hEq => hji hEq.symm)]
                        at hjt
                      exact hall j t hjt
                  · rw [h1] at hp; cases hp
          | leader =>
              have hstep : coStep beh s (.enter i) = s := by
                unfold coStep
                dsimp only
                rw [hti]
              rw [hstep]
              exact h
          | fetched r =>
              have hstep : coStep beh s (.enter i) = s := by
                unfold coStep
                dsimp only
                rw [hti]
              rw [hstep]
              exact h
          | storedDone r =>
              have hstep : coStep beh s (.enter i) = s := by
                unfold coStep
                dsimp only
                rw [hti]
              rw [hstep]
              exact h
          | raisedPending =>
              have hstep : coStep beh s (.enter i) = s := by
                unfold coStep
                dsimp only
                rw [hti]
              rw [hstep]
              exact h
          | waiting =>
              have hstep : coStep beh s (.enter i) = s := by
                unfold coStep
                dsimp only
                rw [hti]
              rw [hstep]
              exact h
          | done o =>
              have hstep : coStep beh s (.enter i) = s := by
                unfold coStep
                dsimp only
                rw [hti]
              rw [hstep]
              exact h
  | runFetch i =>
      cases hti : s.threads.get? i with
      | none =>
          have hstep : coStep beh s (.runFetch i) = s := by
            unfold coStep
            dsimp only
            rw [hti]
          rw [hstep]
          exact h
      | some t =>
          cases t with
          | leader =>
              rcases h with ⟨h1, h2, h3, h4⟩ | ⟨h1, h2, h3, il, hil, hrest⟩ |
                ⟨h1, h2, h3, il, hil, hrest⟩ | ⟨h1, h2, h3, il, hil, hrest⟩ |
                ⟨h1, h2, h3, hall⟩ | ⟨h1, h2, h3, hall⟩
              · have := h4 i _ hti
                simp at this
              · have hEq : i = il := by
                  by_contra hne
                  have := hrest i _ hne hti
                  simp at this
                subst hEq
                cases beh with
                | returns r =>
                    have hstep : coStep (.returns r) s (.runFetch i) =
                        { s with fetchCount := s.fetchCount + 1,
                                 threads :=
                                   s.threads.set i (.fetched r) } := by
                      unfold coStep
                      dsimp only
                      rw [hti]
                    rw [hstep]
                    refine Or.inr (Or.inr (Or.inl ⟨h1, ?_, h3, i, ?_, ?_⟩))
                    · rw [h2]
                    · exact get?_set_self_of_get? hti _
                    · intro j t hj hjt
                      rw [List.get?_set_ne _ _ (Ne.symm hj)] at hjt
                      exact hrest j t hj hjt
                | raises =>
                    have hstep : coStep .raises s (.runFetch i) =
                        { s with fetchCount := s.fetchCount + 1,
                                 threads :=
                                   s.threads.set i .raisedPending } := by
                      unfold coStep
                      dsimp only
                      rw [hti]
                    rw [hstep]
                    refine Or.inr (Or.inr (Or.inl ⟨h1, ?_, h3, i, ?_, ?_⟩))
                    · rw [h2]
                    · exact get?_set_self_of_get? hti _
                    · intro j t hj hjt
                      rw [List.get?_set_ne _ _ (Ne.symm hj)] at hjt
                      exact hrest j t hj hjt
              · have hne : i ≠ il := by
                  intro hEq
                  rw [hEq, hil] at hti
                  cases beh <;> simp [FetchBehavior.ownerMid] at hti
                have := hrest i _ hne hti
                simp at this
              · have hne : i ≠ il := by
                  intro hEq
                  rw [hEq, hil] at hti
                  cases beh <;> simp [FetchBehavior.ownerAfter] at hti
                have := hrest i _ hne hti
                simp at this
              · have := hall i _ hti
                simp at this
              · have := hall i _ hti
                simp at this
          | start =>
              have hstep : coStep beh s (.runFetch i) = s := by
                unfold coStep
                dsimp only
                rw [hti]
              rw [hstep]
              exact h
          | fetched r =>
              have hstep : coStep beh s (.runFetch i) = s := by
                unfold coStep
                dsimp only
                rw [hti]
              rw [hstep]
              exact h
          | storedDone r =>
              have hstep : coStep beh s (.runFetch i) = s := by
                unfold coStep
                dsimp only
                rw [hti]
              rw [hstep]
              exact h
          | raisedPending =>
              have hstep : coStep beh s (.runFetch i) = s := by
                unfold coStep
                dsimp only
                rw [hti]
              rw [hstep]
              exact h
          | waiting =>
              have hstep : coStep beh s (.runFetch i) = s := by
                unfold coStep
                dsimp only
                rw [hti]
              rw [hstep]
              exact h
          | done o =>
              have hstep : coStep beh s (.runFetch i) = s := by
                unfold coStep
                dsimp only
                rw [hti]
              rw [hstep]
              exact h
  | storeResult i =>
      cases hti : s.threads.get? i with
      | none =>
          have hstep : coStep beh s (.storeResult i) = s := by
            unfold coStep
            dsimp only
            rw [hti]
          rw [hstep]
          exact h
      | some t =>
          cases t with
          | fetched r =>
              have hstep : coStep beh s (.storeResult i) =
                  { s with pending := s.pending.map
                             (fun e => { e with result := r }),
                           threads :=
                             s.threads.set i (.storedDone r) } := by
                unfold coStep
                dsimp only
                rw [hti]
              rcases h with ⟨h1, h2, h3, h4⟩ | ⟨h1, h2, h3, il, hil, hrest⟩ |
                ⟨h1, h2, h3, il, hil, hrest⟩ | ⟨h1, h2, h3, il, hil, hrest⟩ |
                ⟨h1, h2, h3, hall⟩ | ⟨h1, h2, h3, hall⟩
              · have := h4 i _ hti
                simp at this
              · have hne : i ≠ il := by
                  intro hEq
                  rw [hEq, hil] at hti
                  simp at hti
                have := hrest i _ hne hti
                simp at this
              · cases beh with
                | returns r0 =>
                    have hEq : i = il := by
                      by_contra hne
                      have := hrest i _ hne hti
                      simp at this
                    subst hEq
                    rw [hil] at hti
                    have hr : r = r0 := by
                      simpa [FetchBehavior.ownerMid] using hti.symm
                    subst hr
                    rw [hstep]
                    refine Or.inr (Or.inr (Or.inr (Or.inl
                      ⟨?_, h2, h3, i, ?_, ?_⟩)))
                    · rw [h1]
                      rfl
                    · exact get?_set_self_of_get? hil _
                    · intro j t hj hjt
                      rw [List.get?_set_ne _ _ (Ne.symm hj)] at hjt
                      rcases hrest j t hj hjt with hw | hw | hw
                      · exact Or.inl hw
                      · exact Or.inr (Or.inl hw)
                      · exact Or.inr (Or.inr (Or.inl hw))
                | raises =>
                    have hne : i ≠ il := by
                      intro hEq
                      rw [hEq, hil] at hti
                      simp [FetchBehavior.ownerMid] at hti
                    have := hrest i _ hne hti
                    simp at this
              · have hne : i ≠ il := by
                  intro hEq
                  rw [hEq, hil] at hti
                  cases beh <;> simp [FetchBehavior.ownerAfter] at hti
                have := hrest i _ hne hti
                simp at this
              · have := hall i _ hti
                simp at this
              · have := hall i _ hti
                simp at this
          | start =>
              have hstep : coStep beh s (.storeResult i) = s := by
                unfold coStep
                dsimp only
                rw [hti]
              rw [hstep]
              exact h
          | leader =>
              have hstep : coStep beh s (.storeResult i) = s := by
                unfold coStep
                dsimp only
                rw [hti]
              rw [hstep]
              exact h
          | storedDone r =>
              have hstep : coStep beh s (.storeResult i) = s := by
                unfold coStep
                dsimp only
                rw [hti]
              rw [hstep]
              exact h
          | raisedPending =>
              have hstep : coStep beh s (.storeResult i) = s := by
                unfold coStep
                dsimp only
                rw [hti]
              rw [hstep]
              exact h
          | waiting =>
              have hstep : coStep beh s (.storeResult i) = s := by
                unfold coStep
                dsimp only
                rw [hti]
              rw [hstep]
              exact h
          | done o =>
              have hstep : coStep beh s (.storeResult i) = s := by
                unfold coStep
                dsimp only
                rw [hti]
              rw [hstep]
              exact h
  | signalRet i =>
      cases hti : s.threads.get? i with
      | none =>
          have hstep : coStep beh s (.signalRet i) = s := by
            unfold coStep
            dsimp only
            rw [hti]
          rw [hstep]
          exact h
      | some t =>
          cases t with
          | storedDone r =>
              have hstep : coStep beh s (.signalRet i) =
                  { s with pending := s.pending.map
                             (fun e => { e with eventSet := true }),
                           threads :=
                             s.threads.set i (.done (.value r)) } := by
                unfold coStep
                dsimp only
                rw [hti]
              rcases h with ⟨h1, h2, h3, h4⟩ | ⟨h1, h2, h3, il, hil, hrest⟩ |
                ⟨h1, h2, h3, il, hil, hrest⟩ | ⟨h1, h2, h3, il, hil, hrest⟩ |
                ⟨h1, h2, h3, hall⟩ | ⟨h1, h2, h3, hall⟩
              · have := h4 i _ hti
                simp at this
              · have hne : i ≠ il := by
                  intro hEq
                  rw [hEq, hil] at hti
                  simp at hti
                have := hrest i _ hne hti
                simp at this
              · have hne : i ≠ il := by
                  intro hEq
                  rw [hEq, hil] at hti
                  cases beh <;> simp [FetchBehavior.ownerMid] at hti
                have := hrest i _ hne hti
                simp at this
              · cases beh with
                | returns r0 =>
                    have hEq : i = il := by
                      by_contra hne
                      have := hrest i _ hne hti
                      simp at this
                    subst hEq
                    rw [hil] at hti
                    have hr : r = r0 := by
                      simpa [FetchBehavior.ownerAfter] using hti.symm
                    subst hr
                    rw [hstep]
                    refine Or.inr (Or.inr (Or.inr (Or.inr (Or.inl
                      ⟨?_, h2, h3, ?_⟩))))
                    · rw [h1]
                      rfl
                    · intro j t hjt
                      by_cases hji : j = i
                      · subst hji
                        rw [get?_set_self_of_get? hil _] at hjt
                        cases hjt
                        exact Or.inr (Or.inr (Or.inl rfl))
                      · rw [List.get?_set_ne _ _
                          (fun hEq => hji hEq.symm)] at hjt
                        rcases hrest j t hji hjt with hw | hw | hw | hw
                        · exact Or.inl hw
                        · exact Or.inr (Or.inl hw)
                        · exact Or.inr (Or.inr (Or.inr (Or.inr hw)))
                        · exact Or.inr (Or.inr (Or.inr (Or.inl hw)))
                | raises =>
                    have hne : i ≠ il := by
                      intro hEq
                      rw [hEq, hil] at hti
                      simp [FetchBehavior.ownerAfter] at hti
                    have := hrest i _ hne hti
                    simp at this
              · have := hall i _ hti
                simp at this
              · have := hall i _ hti
                simp at this
          | raisedPending =>
              have hstep : coStep beh s (.signalRet i) =
                  { s with pending := s.pending.map
                             (fun e => { e with eventSet := true }),
                           threads :=
                             s.threads.set i (.done .raised) } := by
                unfold coStep
                dsimp only
                rw [hti]
              rcases h with ⟨h1, h2, h3, h4⟩ | ⟨h1, h2, h3, il, hil, hrest⟩ |
                ⟨h1, h2, h3, il, hil, hrest⟩ | ⟨h1, h2, h3, il, hil, hrest⟩ |
                ⟨h1, h2, h3, hall⟩ | ⟨h1, h2, h3, hall⟩
              · have := h4 i _ hti
                simp at this
              · have hne : i ≠ il := by
                  intro hEq
                  rw [hEq, hil] at hti
                  simp at hti
                have := hrest i _ hne hti
                simp at this
              · cases beh with
                | returns r0 =>
                    have hne : i ≠ il := by
                      intro hEq
                      rw [hEq, hil] at hti
                      simp [FetchBehavior.ownerMid] at hti
                    have := hrest i _ hne hti
                    simp at this
                | raises =>
                    have hEq : i = il := by
                      by_contra hne
                      have := hrest i _ hne hti
                      simp at this
                    subst hEq
                    rw [hstep]
                    refine Or.inr (Or.inr (Or.inr (Or.inr (Or.inl
                      ⟨?_, h2, h3, ?_⟩))))
                    · rw [h1]
                      rfl
                    · intro j t hjt
                      by_cases hji : j = i
                      · subst hji
                        rw [get?_set_self_of_get? hil _] at hjt
                        cases hjt
                        exact Or.inr (Or.inr (Or.inl rfl))
                      · rw [List.get?_set_ne _ _
                          (fun hEq => hji hEq.symm)] at hjt
                        rcases hrest j t hji hjt with hw | hw | hw
                        · exact Or.inl hw
                        · exact Or.inr (Or.inl hw)
                        · exact Or.inr (Or.inr (Or.inr (Or.inr hw)))
              · cases beh with
                | returns r0 =>
                    have hne : i ≠ il := by
                      intro hEq
                      rw [hEq, hil] at hti
                      simp [FetchBehavior.ownerAfter] at hti
                    have := hrest i _ hne hti
                    simp at this
                | raises =>
                    have hEq : i = il := by
                      by_contra hne
                      have := hrest i _ hne hti
                      simp at this
                    subst hEq
                    rw [hstep]
                    refine Or.inr (Or.inr (Or.inr (Or.inr (Or.inl
                      ⟨?_, h2, h3, ?_⟩))))
                    · rw [h1]
                      rfl
                    · intro j t hjt
                      by_cases hji : j = i
                      · subst hji
                        rw [get?_set_self_of_get? hil _] at hjt
                        cases hjt
                        exact Or.inr (Or.inr (Or.inl rfl))
                      · rw [List.get?_set_ne _ _
                          (fun hEq => hji hEq.symm)] at hjt
                        rcases hrest j t hji hjt with hw | hw | hw | hw
                        · exact Or.inl hw
                        · exact Or.inr (Or.inl hw)
                        · exact Or.inr (Or.inr (Or.inr (Or.inr hw)))
                        · exact Or.inr (Or.inr (Or.inr (Or.inl hw)))
              · have := hall i _ hti
                simp at this
              · have := hall i _ hti
                simp at this
          | start =>
              have hstep : coStep beh s (.signalRet i) = s := by
                unfold coStep
                dsimp only
                rw [hti]
              rw [hstep]
              exact h
          | leader =>
              have hstep : coStep beh s (.signalRet i) = s := by
                unfold coStep
                dsimp only
                rw [hti]
              rw [hstep]
              exact h
          | fetched r =>
              have hstep : coStep beh s (.signalRet i) = s := by
                unfold coStep
                dsimp only
                rw [hti]
              rw [hstep]
              exact h
          | waiting =>
              have hstep : coStep beh s (.signalRet i) = s := by
                unfold coStep
                dsimp only
                rw [hti]
              rw [hstep]
              exact h
          | done o =>
              have hstep : coStep beh s (.signalRet i) = s := by
                unfold coStep
                dsimp only
                rw [hti]
              rw [hstep]
              exact h
  | wakeRead i =>
      cases hti : s.threads.get? i with
      | none =>
          have hstep : coStep beh s (.wakeRead i) = s := by
            unfold coStep
            dsimp only
            rw [hti]
          rw [hstep]
          exact h
      | some t =>
          cases t with
          | waiting =>
              cases hp : s.pending with
              | none =>
                  have hstep : coStep beh s (.wakeRead i) = s := by
                    unfold coStep
                    dsimp only
                    rw [hti]
                    dsimp only
                    rw [hp]
                  rw [hstep]
                  exact h
              | some e =>
                  by_cases he : e.eventSet = true
                  · have hstep : coStep beh s (.wakeRead i) =
                        { s with threads :=
                            s.threads.set i (.done (.value e.result)) } := by
                      unfold coStep
                      dsimp only
                      rw [hti]
                      dsimp only
                      rw [hp]
                      dsimp only
                      rw [if_pos he]
                    rw [hstep]
                    rcases h with ⟨h1, h2, h3, h4⟩ |
                      ⟨h1, h2, h3, il, hil, hrest⟩ |
                      ⟨h1, h2, h3, il, hil, hrest⟩ |
                      ⟨h1, h2, h3, il, hil, hrest⟩ |
                      ⟨h1, h2, h3, hall⟩ | ⟨h1, h2, h3, hall⟩
                    · have := h4 i _ hti
                      simp at this
                    · rw [h1] at hp
                      cases hp
                      simp at he
                    · rw [h1] at hp
                      cases hp
                      simp at he
                    · rw [h1] at hp
                      cases hp
                      simp at he
                    · rw [h1] at hp
                      cases hp
                      refine Or.inr (Or.inr (Or.inr (Or.inr (Or.inl
                        ⟨h1, h2, h3, ?_⟩))))
                      intro j t hjt
                      by_cases hji : j = i
                      · subst hji
                        rw [get?_set_self_of_get? hti _] at hjt
                        cases hjt
                        exact Or.inr (Or.inr (Or.inr (Or.inl rfl)))
                      · rw [List.get?_set_ne _ _
                          (fun hEq => hji hEq.symm)] at hjt
                        exact hall j t hjt
                    · rw [h1] at hp
                      cases hp
                  · have hstep : coStep beh s (.wakeRead i) = s := by
                      unfold coStep
                      dsimp only
                      rw [hti]
                      dsimp only
                      rw [hp]
                      dsimp only
                      rw [if_neg he]
                    rw [hstep]
                    exact h
          | start =>
              have hstep : coStep beh s (.wakeRead i) = s := by
                unfold coStep
                dsimp only
                rw [hti]
              rw [hstep]
              exact h
          | leader =>
              have hstep : coStep beh s (.wakeRead i) = s := by
                unfold coStep
                dsimp only
                rw [hti]
              rw [hstep]
              exact h
          | fetched r =>
              have hstep : coStep beh s (.wakeRead i) = s := by
                unfold coStep
                dsimp only
                rw [hti]
              rw [hstep]
              exact h
          | storedDone r =>
              have hstep : coStep beh s (.wakeRead i) = s := by
                unfold coStep
                dsimp only
                rw [hti]
              rw [hstep]
              exact h
          | raisedPending =>
              have hstep : coStep beh s (.wakeRead i) = s := by
                unfold coStep
                dsimp only
                rw [hti]
              rw [hstep]
              exact h
          | done o =>
              have hstep : coStep beh s (.wakeRead i) = s := by
                unfold coStep
                dsimp only
                rw [hti]
              rw [hstep]
              exact h
  | timeoutRead i =>
      cases hti : s.threads.get? i with
      | none =>
          have hstep : coStep beh s (.timeoutRead i) = s := by
            unfold coStep
            dsimp only
            rw [hti]
          rw [hstep]
          exact h
      | some t =>
          cases t with
          | waiting =>
              cases hp : s.pending with
              | some e =>
                  have hstep : coStep beh s (.timeoutRead i) =
                      { s with threads :=
                          s.threads.set i (.done (.value e.result)) } := by
                    unfold coStep
                    dsimp only
                    rw [hti]
                    dsimp only
                    rw [hp]
                  rw [hstep]
                  rcases h with ⟨h1, h2, h3, h4⟩ |
                    ⟨h1, h2, h3, il, hil, hrest⟩ |
                    ⟨h1, h2, h3, il, hil, hrest⟩ |
                    ⟨h1, h2, h3, il, hil, hrest⟩ |
                    ⟨h1, h2, h3, hall⟩ | ⟨h1, h2, h3, hall⟩
                  · have := h4 i _ hti
                    simp at this
                  · rw [h1] at hp
                    cases hp
                    have hne : i ≠ il := by
                      intro hEq
                      rw [hEq, hil] at hti
                      simp at hti
                    refine Or.inr (Or.inl ⟨h1, h2, h3, il, ?_, ?_⟩)
                    · rw [List.get?_set_ne _ _ hne]
                      exact hil
                    · intro j t hj hjt
                      by_cases hji : j = i
                      · subst hji
                        rw [get?_set_self_of_get? hti _] at hjt
                        cases hjt
                        exact Or.inr (Or.inr rfl)
                      · rw [List.get?_set_ne _ _
                          (fun hEq => hji hEq.symm)] at hjt
                        exact hrest j t hj hjt
                  · rw [h1] at hp
                    cases hp
                    have hne : i ≠ il := by
                      intro hEq
                      rw [hEq, hil] at hti
                      cases beh <;> simp [FetchBehavior.ownerMid] at hti
                    refine Or.inr (Or.inr (Or.inl ⟨h1, h2, h3, il, ?_, ?_⟩))
                    · rw [List.get?_set_ne _ _ hne]
                      exact hil
                    · intro j t hj hjt
                      by_cases hji : j = i
                      · subst hji
                        rw [get?_set_self_of_get? hti _] at hjt
                        cases hjt
                        exact Or.inr (Or.inr rfl)
                      · rw [List.get?_set_ne _ _
                          (fun hEq => hji hEq.symm)] at hjt
                        exact hrest j t hj hjt
                  · rw [h1] at hp
                    cases hp
                    have hne : i ≠ il := by
                      intro hEq
                      rw [hEq, hil] at hti
                      cases beh <;> simp [FetchBehavior.ownerAfter] at hti
                    refine Or.inr (Or.inr (Or.inr (Or.inl
                      ⟨h1, h2, h3, il, ?_, ?_⟩)))
                    · rw [List.get?_set_ne _ _ hne]
                      exact hil
                    · intro j t hj hjt
                      by_cases hji : j = i
                      · subst hji
                        rw [get?_set_self_of_get? hti _] at hjt
                        cases hjt
                        exact Or.inr (Or.inr (Or.inr rfl))
                      · rw [List.get?_set_ne _ _
                          (fun hEq => hji hEq.symm)] at hjt
                        exact hrest j t hj hjt
                  · rw [h1] at hp
                    cases hp
                    refine Or.inr (Or.inr (Or.inr (Or.inr (Or.inl
                      ⟨h1, h2, h3, ?_⟩))))
                    intro j t hjt
                    by_cases hji : j = i
                    · subst hji
                      rw [get?_set_self_of_get? hti _] at hjt
                      cases hjt
                      exact Or.inr (Or.inr (Or.inr (Or.inl rfl)))
                    · rw [List.get?_set_ne _ _
                        (fun hEq => hji hEq.symm)] at hjt
                      exact hall j t hjt
                  · rw [h1] at hp
                    cases hp
              | none =>
                  have hstep : coStep beh s (.timeoutRead i) =
                      { s with threads :=
                          s.threads.set i (.done (.value none)) } := by
                    unfold coStep
                    dsimp only
                    rw [hti]
                    dsimp only
                    rw [hp]
                  rw [hstep]
                  rcases h with ⟨h1, h2, h3, h4⟩ |
                    ⟨h1, h2, h3, il, hil, hrest⟩ |
                    ⟨h1, h2, h3, il, hil, hrest⟩ |
                    ⟨h1, h2, h3, il, hil, hrest⟩ |
                    ⟨h1, h2, h3, hall⟩ | ⟨h1, h2, h3, hall⟩
                  · have := h4 i _ hti
                    simp at this
                  · rw [h1] at hp; cases hp
                  · rw [h1] at hp; cases hp
                  · rw [h1] at hp; cases hp
                  · rw [h1] at hp; cases hp
                  · refine Or.inr (Or.inr (Or.inr (Or.inr (Or.inr
                      ⟨h1, h2, h3, ?_⟩))))
                    intro j t hjt
                    by_cases hji : j = i
                    · subst hji
                      rw [get?_set_self_of_get? hti _] at hjt
                      cases hjt
                      exact Or.inr (Or.inr (Or.inr (Or.inr rfl)))
                    · rw [List.get?_set_ne _ _
                        (fun hEq => hji hEq.symm)] at hjt
                      exact hall j t hjt
          | start =>
              have hstep : coStep beh s (.timeoutRead i) = s := by
                unfold coStep
                dsimp only
                rw [hti]
              rw [hstep]
              exact h
          | leader =>
              have hstep : coStep beh s (.timeoutRead i) = s := by
                unfold coStep
                dsimp only
                rw [hti]
              rw [hstep]
              exact h
          | fetched r =>
              have hstep : coStep beh s (.timeoutRead i) = s := by
                unfold coStep
                dsimp only
                rw [hti]
              rw [hstep]
              exact h
          | storedDone r =>
              have hstep : coStep beh s (.timeoutRead i) = s := by
                unfold coStep
                dsimp only
                rw [hti]
              rw [hstep]
              exact h
          | raisedPending =>
              have hstep : coStep beh s (.timeoutRead i) = s := by
                unfold coStep
                dsimp only
                rw [hti]
              rw [hstep]
              exact h
          | done o =>
              have hstep : coStep beh s (.timeoutRead i) = s := by
                unfold coStep
                dsimp only
                rw [hti]
              rw [hstep]
              exact h
  | cleanup =>
      cases hp : s.pending with
      | none =>
          have hstep : coStep beh s .cleanup = s := by
            unfold coStep
            dsimp only
            rw [hp]
          rw [hstep]
          exact h
      | some e =>
          by_cases he : e.eventSet = true
          · have hstep : coStep beh s .cleanup =
                { s with pending := none, closed := true } := by
              unfold coStep
              dsimp only
              rw [hp]
              dsimp only
              rw [if_pos he]
            rw [hstep]
            rcases h with ⟨h1, h2, h3, h4⟩ | ⟨h1, h2, h3, il, hil, hrest⟩ |
              ⟨h1, h2, h3, il, hil, hrest⟩ | ⟨h1, h2, h3, il, hil, hrest⟩ |
              ⟨h1, h2, h3, hall⟩ | ⟨h1, h2, h3, hall⟩
            · rw [h1] at hp; cases hp
            · rw [h1] at hp
              cases hp
              simp at he
            · rw [h1] at hp
              cases hp
              simp at he
            · rw [h1] at hp
              cases hp
              simp at he
            · exact Or.inr (Or.inr (Or.inr (Or.inr (Or.inr
                ⟨rfl, h2, rfl, hall⟩))))
            · rw [h1] at hp; cases hp
          · have hstep : coStep beh s .cleanup = s := by
              unfold coStep
              dsimp only
              rw [hp]
              dsimp only
              rw [if_neg he]
            rw [hstep]
            exact h

theorem coInv_run (beh : FetchBehavior) (labels : List CoLabel)
    (s : CoState) (h : CoInv beh s) : CoInv beh (coRun beh s labels) := by
  induction labels generalizing s with
  | nil => exact h
  | cons l ls ih => exact ih _ (coInv_step beh s l h)

/-- Counterexample to C1 as stated: with a fetch function that returns
the value 5, after a concrete interleaving in which the 30-second
`event.wait` of the second caller expires while the leader is still
fetching, the timed-out waiter returns the None placeholder and the
leader returns 5 — two callers of the same coalescing window receive
different results even though the fetch completed normally. -/
theorem coalescer_timed_out_waiter_counterexample :
    (coRun (FetchBehavior.returns (some 5)) (coInit 2)
      [CoLabel.enter 0, CoLabel.enter 1, CoLabel.timeoutRead 1,
       CoLabel.runFetch 0, CoLabel.storeResult 0,
       CoLabel.signalRet 0]).threads.get? 0 =
      some (TState.done (Outcome.value (some 5))) ∧
    (coRun (FetchBehavior.returns (some 5)) (coInit 2)
      [CoLabel.enter 0, CoLabel.enter 1, CoLabel.timeoutRead 1,
       CoLabel.runFetch 0, CoLabel.storeResult 0,
       CoLabel.signalRet 0]).threads.get? 1 =
      some (TState.done (Outcome.value none)) ∧
    Outcome.value (none : Option ℚ) ≠ Outcome.value (some 5) := by
  refine ⟨by decide, by decide, by decide⟩

/-- Claim C1 (amended) — single flight with the waiter-timeout caveat:
along every interleaving of `_deduplicated_fetch` steps of one
coalescing window, the provider fetch function runs at most once; it
has run exactly once by the time the event is set or the entry is
cleaned up; while the entry is present with its event set, its result
slot holds the fetched result, so the leader and every waiter the
event wakes in time observe that result; at most one caller at a time
owns the non-completed in-flight request (the registry, a dict keyed
by the request key, holds at most one entry per key by construction).
But a caller may instead complete with the None placeholder — when its
30-second wait expires before the store, or when its read happens only
after the cleanup — so completed callers observe the fetched result or
None, and nothing else. -/
theorem deduplicated_fetch_single_flight (n : ℕ) (beh : FetchBehavior)
    (labels : List CoLabel) :
    (coRun beh (coInit n) labels).fetchCount ≤ 1 ∧
    ((∃ e, (coRun beh (coInit n) labels).pending = some e ∧
        e.eventSet = true) ∨ (coRun beh (coInit n) labels).closed = true →
      (coRun beh (coInit n) labels).fetchCount = 1) ∧
    (∀ e, (coRun beh (coInit n) labels).pending = some e →
      e.eventSet = true → e.result = beh.res) ∧
    (∀ r, beh = FetchBehavior.returns r →
      ∀ i o, (coRun beh (coInit n) labels).threads.get? i =
          some (TState.done o) →
        o = Outcome.value r ∨ o = Outcome.value none) ∧
    (∀ i j ti tj, i ≠ j →
      (coRun beh (coInit n) labels).threads.get? i = some ti →
      (coRun beh (coInit n) labels).threads.get? j = some tj →
      ¬(ti.isOwner = true ∧ tj.isOwner = true)) := by
  rcases coInv_run beh labels (coInit n) (coInv_init beh n) with
    ⟨h1, h2, h3, h4⟩ | ⟨h1, h2, h3, il, hil, hrest⟩ |
    ⟨h1, h2, h3, il, hil, hrest⟩ | ⟨h1, h2, h3, il, hil, hrest⟩ |
    ⟨h1, h2, h3, hall⟩ | ⟨h1, h2, h3, hall⟩
  · refine ⟨by rw [h2]; omega, ?_, ?_, ?_, ?_⟩
    · rintro (⟨e, hpe, hee⟩ | hcl)
      · rw [h1] at hpe; cases hpe
      · rw [h3] at hcl; simp at hcl
    · intro e hpe hee
      rw [h1] at hpe; cases hpe
    · intro r _ i o hi
      have := h4 i _ hi
      simp at this
    · intro i j ti tj hij hi hj hcon
      have := h4 i _ hi
      subst this
      simp [TState.isOwner] at hcon
  · refine ⟨by rw [h2]; omega, ?_, ?_, ?_, ?_⟩
    · rintro (⟨e, hpe, hee⟩ | hcl)
      · rw [h1] at hpe
        cases hpe
        simp at hee
      · rw [h3] at hcl; simp at hcl
    · intro e hpe hee
      rw [h1] at hpe
      cases hpe
      simp at hee
    · intro r _ i o hi
      by_cases hEq : i = il
      · subst hEq
        rw [hil] at hi
        simp at hi
      · rcases hrest i _ hEq hi with hw | hw | hw
        · simp at hw
        · simp at hw
        · simp at hw
          exact Or.inr hw
    · intro i j ti tj hij hi hj hcon
      by_cases hEq : i = il
      · subst hEq
        rcases hrest j _ (fun hEq2 => hij hEq2.symm) hj with hw | hw | hw <;>
          (subst hw; simp [TState.isOwner] at hcon)
      · rcases hrest i _ hEq hi with hw | hw | hw <;>
          (subst hw; simp [TState.isOwner] at hcon)
  · refine ⟨by rw [h2], ?_, ?_, ?_, ?_⟩
    · rintro (⟨e, hpe, hee⟩ | hcl)
      · rw [h1] at hpe
        cases hpe
        simp at hee
      · rw [h3] at hcl; simp at hcl
    · intro e hpe hee
      rw [h1] at hpe
      cases hpe
      simp at hee
    · intro r hbeh i o hi
      subst hbeh
      by_cases hEq : i = il
      · subst hEq
        rw [hil] at hi
        simp [FetchBehavior.ownerMid] at hi
      · rcases hrest i _ hEq hi with hw | hw | hw
        · simp at hw
        · simp at hw
        · simp at hw
          exact Or.inr hw
    · intro i j ti tj hij hi hj hcon
      by_cases hEq : i = il
      · subst hEq
        rcases hrest j _ (fun hEq2 => hij hEq2.symm) hj with hw | hw | hw <;>
          (subst hw; simp [TState.isOwner] at hcon)
      · rcases hrest i _ hEq hi with hw | hw | hw <;>
          (subst hw; simp [TState.isOwner] at hcon)
  · refine ⟨by rw [h2], ?_, ?_, ?_, ?_⟩
    · rintro (⟨e, hpe, hee⟩ | hcl)
      · rw [h1] at hpe
        cases hpe
        simp at hee
      · rw [h3] at hcl; simp at hcl
    · intro e hpe hee
      rw [h1] at hpe
      cases hpe
      simp at hee
    · intro r hbeh i o hi
      subst hbeh
      by_cases hEq : i = il
      · subst hEq
        rw [hil] at hi
        simp [FetchBehavior.ownerAfter] at hi
      · rcases hrest i _ hEq hi with hw | hw | hw | hw
        · simp at hw
        · simp at hw
        · simp at hw
          exact Or.inr hw
        · simp [FetchBehavior.res] at hw
          exact Or.inl hw
    · intro i j ti tj hij hi hj hcon
      by_cases hEq : i = il
      · subst hEq
        rcases hrest j _ (fun hEq2 => hij hEq2.symm) hj with
          hw | hw | hw | hw <;> (subst hw; simp [TState.isOwner] at hcon)
      · rcases hrest i _ hEq hi with hw | hw | hw | hw <;>
          (subst hw; simp [TState.isOwner] at hcon)
  · refine ⟨by rw [h2], fun _ => h2, ?_, ?_, ?_⟩
    · intro e hpe hee
      rw [h1] at hpe
      cases hpe
      rfl
    · intro r hbeh i o hi
      subst hbeh
      rcases hall i _ hi with hw | hw | hw | hw | hw
      · simp at hw
      · simp at hw
      · simp [FetchBehavior.leaderOutcome] at hw
        exact Or.inl hw
      · simp [FetchBehavior.res] at hw
        exact Or.inl hw
      · simp at hw
        exact Or.inr hw
    · intro i j ti tj hij hi hj hcon
      rcases hall i _ hi with hw | hw | hw | hw | hw <;>
        (subst hw; simp [TState.isOwner] at hcon)
  · refine ⟨by rw [h2], fun _ => h2, ?_, ?_, ?_⟩
    · intro e hpe hee
      rw [h1] at hpe
      cases hpe
    · intro r hbeh i o hi
      subst hbeh
      rcases hall i _ hi with hw | hw | hw | hw | hw
      · simp at hw
      · simp at hw
      · simp [FetchBehavior.leaderOutcome] at hw
        exact Or.inl hw
      · simp [FetchBehavior.res] at hw
        exact Or.inl hw
      · simp at hw
        exact Or.inr hw
    · intro i j ti tj hij hi hj hcon
      rcases hall i _ hi with hw | hw | hw | hw | hw <;>
        (subst hw; simp [TState.isOwner] at hcon)

/-- Witness for C1 (amended): two callers, the fetch returns 5, the
waiter times out mid-fetch; once the event is set the fetch has run
exactly once, and the outcome of the leader is the fetched value. -/
theorem deduplicated_fetch_single_flight_witness :
    (coRun (FetchBehavior.returns (some 5)) (coInit 2)
      [CoLabel.enter 0, CoLabel.enter 1, CoLabel.timeoutRead 1,
       CoLabel.runFetch 0, CoLabel.storeResult 0,
       CoLabel.signalRet 0]).fetchCount = 1 ∧
    ((Outcome.value (some 5) : Outcome) = Outcome.value (some 5) ∨
      (Outcome.value (some 5) : Outcome) = Outcome.value none) := by
  have h := deduplicated_fetch_single_flight 2 (.returns (some 5))
    [CoLabel.enter 0, CoLabel.enter 1, CoLabel.timeoutRead 1,
     CoLabel.runFetch 0, CoLabel.storeResult 0, CoLabel.signalRet 0]
  refine ⟨h.2.1 (Or.inl ⟨⟨true, some 5⟩, by decide, rfl⟩),
    h.2.2.2.1 (some 5) rfl 0 (Outcome.value (some 5)) (by decide)⟩

/-- Counterexample to C2 as stated: with a fetch function that raises,
after a concrete complete interleaving the leader propagates the
exception, while the registered waiter returns the untouched `None`
placeholder of the in-flight entry — an empty value, not the error. -/
theorem coalescer_waiter_gets_none_counterexample :
    (coRun FetchBehavior.raises (coInit 2)
      [CoLabel.enter 0, CoLabel.enter 1, CoLabel.runFetch 0,
       CoLabel.signalRet 0, CoLabel.wakeRead 1]).threads.get? 0 =
      some (TState.done Outcome.raised) ∧
    (coRun FetchBehavior.raises (coInit 2)
      [CoLabel.enter 0, CoLabel.enter 1, CoLabel.runFetch 0,
       CoLabel.signalRet 0, CoLabel.wakeRead 1]).threads.get? 1 =
      some (TState.done (Outcome.value none)) ∧
    (Outcome.value none : Outcome) ≠ Outcome.raised := by
  refine ⟨by decide, by decide, by decide⟩

/-- Claim C2 (amended) — error propagation in `_deduplicated_fetch`:
when the fetch function of the leader raises, the exception is not
stored in the entry, so every completed caller either propagated the
exception (the leader) or returned the `None` placeholder (the
waiters); when the fetch function signals failure by returning
`None` — the convention of every fetch function in this service — all
completed callers receive that same `None`. -/
theorem coalescer_error_propagation (n : ℕ) (labels : List CoLabel) :
    (∀ i o, (coRun FetchBehavior.raises (coInit n) labels).threads.get? i =
        some (TState.done o) →
      o = Outcome.raised ∨ o = Outcome.value none) ∧
    (∀ i o,
      (coRun (FetchBehavior.returns none) (coInit n) labels).threads.get? i =
          some (TState.done o) →
      o = Outcome.value none) := by
  constructor
  · intro i o hi
    rcases coInv_run FetchBehavior.raises labels (coInit n)
        (coInv_init FetchBehavior.raises n) with
      ⟨h1, h2, h3, h4⟩ | ⟨h1, h2, h3, il, hil, hrest⟩ |
      ⟨h1, h2, h3, il, hil, hrest⟩ | ⟨h1, h2, h3, il, hil, hrest⟩ |
      ⟨h1, h2, h3, hall⟩ | ⟨h1, h2, h3, hall⟩
    · have := h4 i _ hi
      simp at this
    · by_cases hEq : i = il
      · subst hEq
        rw [hil] at hi
        simp at hi
      · rcases hrest i _ hEq hi with hw | hw | hw
        · simp at hw
        · simp at hw
        · simp at hw
          exact Or.inr hw
    · by_cases hEq : i = il
      · subst hEq
        rw [hil] at hi
        simp [FetchBehavior.ownerMid] at hi
      · rcases hrest i _ hEq hi with hw | hw | hw
        · simp at hw
        · simp at hw
        · simp at hw
          exact Or.inr hw
    · by_cases hEq : i = il
      · subst hEq
        rw [hil] at hi
        simp [FetchBehavior.ownerAfter] at hi
      · rcases hrest i _ hEq hi with hw | hw | hw | hw
        · simp at hw
        · simp at hw
        · simp at hw
          exact Or.inr hw
        · simp [FetchBehavior.res] at hw
          exact Or.inr hw
    · rcases hall i _ hi with hw | hw | hw | hw | hw
      · simp at hw
      · simp at hw
      · simp [FetchBehavior.leaderOutcome] at hw
        exact Or.inl hw
      · simp [FetchBehavior.res] at hw
        exact Or.inr hw
      · simp at hw
        exact Or.inr hw
    · rcases hall i _ hi with hw | hw | hw | hw | hw
      · simp at hw
      · simp at hw
      · simp [FetchBehavior.leaderOutcome] at hw
        exact Or.inl hw
      · simp [FetchBehavior.res] at hw
        exact Or.inr hw
      · simp at hw
        exact Or.inr hw
  · intro i o hi
    rcases coInv_run (FetchBehavior.returns none) labels (coInit n)
        (coInv_init (FetchBehavior.returns none) n) with
      ⟨h1, h2, h3, h4⟩ | ⟨h1, h2, h3, il, hil, hrest⟩ |
      ⟨h1, h2, h3, il, hil, hrest⟩ | ⟨h1, h2, h3, il, hil, hrest⟩ |
      ⟨h1, h2, h3, hall⟩ | ⟨h1, h2, h3, hall⟩
    · have := h4 i _ hi
      simp at this
    · by_cases hEq : i = il
      · subst hEq
        rw [hil] at hi
        simp at hi
      · rcases hrest i _ hEq hi with hw | hw | hw
        · simp at hw
        · simp at hw
        · simp at hw
          exact hw
    · by_cases hEq : i = il
      · subst hEq
        rw [hil] at hi
        simp [FetchBehavior.ownerMid] at hi
      · rcases hrest i _ hEq hi with hw | hw | hw
        · simp at hw
        · simp at hw
        · simp at hw
          exact hw
    · by_cases hEq : i = il
      · subst hEq
        rw [hil] at hi
        simp [FetchBehavior.ownerAfter] at hi
      · rcases hrest i _ hEq hi with hw | hw | hw | hw
        · simp at hw
        · simp at hw
        · simp at hw
          exact hw
        · simp [FetchBehavior.res] at hw
          exact hw
    · rcases hall i _ hi with hw | hw | hw | hw | hw
      · simp at hw
      · simp at hw
      · simp [FetchBehavior.leaderOutcome] at hw
        exact hw
      · simp [FetchBehavior.res] at hw
        exact hw
      · simp at hw
        exact hw
    · rcases hall i _ hi with hw | hw | hw | hw | hw
      · simp at hw
      · simp at hw
      · simp [FetchBehavior.leaderOutcome] at hw
        exact hw
      · simp [FetchBehavior.res] at hw
        exact hw
      · simp at hw
        exact hw

/-- Witness for C2 (amended) at the concrete raising trace: the
completed waiter got the `None` placeholder. -/
theorem coalescer_error_propagation_witness :
    (Outcome.value none : Outcome) = Outcome.raised ∨
    (Outcome.value none : Outcome) = Outcome.value none :=
  (coalescer_error_propagation 2
    [CoLabel.enter 0, CoLabel.enter 1, CoLabel.runFetch 0,
     CoLabel.signalRet 0, CoLabel.wakeRead 1]).1 1
    (Outcome.value none) (by decide)

end PeakStrategy
